import Mathlib

/-!
Verification of the Coyan fault-tree analysis engine.

This file gives a shallow embedding, in Lean 4, of the core data model and
algorithms of the Coyan static-fault-tree analyser (crate coyan_fta):
the propositional formula type and its evaluation (src/formula.rs), the node
model (src/nodes.rs), the Tseitin encoder (src/nodes.rs and
src/fault_tree.rs), the weight emitter (src/fault_tree.rs), the normalizer
pipeline (src/fault_tree_normalizer.rs), the k-of-n expansion, the
Dutuit-Rauzy modularizer (src/modularizer.rs) and the solver stderr
protocol (src/solver.rs).  Machine floating point values are modelled by an
abstract commutative ring (instantiated at the rationals for concrete
computations); the library exponential is modelled by an abstract function
parameter.  Fallible code (Rust panics and unwraps) is modelled with Option.
Theorems about the claims of the specification follow the definitions.
-/

/-- NodeId models the dense index type defined with define_index_type in
src/nodes.rs; its raw payload is a machine word used as a list index. -/
abbrev NodeId := Nat

/-- The formula type of src/formula.rs.  The constructors mirror the Rust
enum Formula of Atom, Not, And, Or, Vot, _True and _False. -/
inductive Formula (A : Type) where
  | Atom : A → Formula A
  | Not : Formula A → Formula A
  | And : List (Formula A) → Formula A
  | Or : List (Formula A) → Formula A
  | Vot : Int → List (Formula A) → Formula A
  | _True : Formula A
  | _False : Formula A
  deriving Repr

mutual

/-- Boolean evaluation of a formula under an assignment of the atoms.  The
source never evaluates formulas itself (it delegates to a WMC solver); this
is the standard semantics of the connectives, used to state the logical
claims of the specification.  A Vot formula is never evaluated by any claim
(the encoder expands or rejects Vot before any semantic step), so its value
here is an arbitrary default. -/
def Formula.eval {A : Type} (v : A → Bool) : Formula A → Bool
  | .Atom a => v a
  | .Not f => !(Formula.eval v f)
  | .And fs => Formula.evalConj v fs
  | .Or fs => Formula.evalDisj v fs
  | .Vot _ _ => false
  | ._True => true
  | ._False => false

/-- Conjunction of the evaluations of a list of formulas. -/
def Formula.evalConj {A : Type} (v : A → Bool) : List (Formula A) → Bool
  | [] => true
  | f :: fs => Formula.eval v f && Formula.evalConj v fs

/-- Disjunction of the evaluations of a list of formulas. -/
def Formula.evalDisj {A : Type} (v : A → Bool) : List (Formula A) → Bool
  | [] => false
  | f :: fs => Formula.eval v f || Formula.evalDisj v fs

end

theorem Formula.evalConj_eq_all {A : Type} (v : A → Bool) (fs : List (Formula A)) :
    Formula.evalConj v fs = fs.all (fun f => f.eval v) := by
  induction fs with
  | nil => rfl
  | cons f fs ih => simp [Formula.evalConj, List.all_cons, ih]

theorem Formula.evalDisj_eq_any {A : Type} (v : A → Bool) (fs : List (Formula A)) :
    Formula.evalDisj v fs = fs.any (fun f => f.eval v) := by
  induction fs with
  | nil => rfl
  | cons f fs ih => simp [Formula.evalDisj, List.any_cons, ih]

theorem Formula.eval_And_eq {A : Type} (v : A → Bool) (fs : List (Formula A)) :
    (Formula.And fs).eval v = fs.all (fun f => f.eval v) := by
  rw [Formula.eval, Formula.evalConj_eq_all]

theorem Formula.eval_Or_eq {A : Type} (v : A → Bool) (fs : List (Formula A)) :
    (Formula.Or fs).eval v = fs.any (fun f => f.eval v) := by
  rw [Formula.eval, Formula.evalDisj_eq_any]

mutual

/-- The negate method of src/formula.rs.  All cases follow the source; the
recursion into And and Or argument lists is written as a mutual helper
instead of an iterator map.  On a Vot formula the source raises an
unimplemented-panic (the todo macro), a branch that is unreachable from the
encoder, which only negates atoms; here that branch returns the formula
unchanged. -/
def Formula.negate {A : Type} : Formula A → Formula A
  | .Atom a => .Not (.Atom a)
  | .Not b => b
  | ._False => ._True
  | ._True => ._False
  | .And args => .Or (Formula.negateList args)
  | .Or args => .And (Formula.negateList args)
  | .Vot k args => .Vot k args

/-- Negation mapped over a list of formulas. -/
def Formula.negateList {A : Type} : List (Formula A) → List (Formula A)
  | [] => []
  | f :: fs => Formula.negate f :: Formula.negateList fs

end

/-- The gate operator keyword of a parsed gate declaration, as matched by
read_file of src/fault_tree_normalizer.rs.  The source keeps the operator
as a lowercased string and re-parses the k-of-n shape in
fill_placeholders; here the lexical shape is already parsed: ofK holds the
k and n of an op of the form k-of-n, and unsupported holds one of the
dynamic gate keywords (csp, wsp, hsp, pand, seq, fdep) that read_file
rejects as non-static. -/
inductive GateOp where
  | and
  | or
  | xor
  | not
  | ofK (k n : Nat)
  | unsupported (s : String)
  deriving Repr, DecidableEq

/-- The node model.  NodeType mirrors the Rust node enum: the variants of
enum Node of src/nodes.rs and of the NodeType used by src/fault_tree.rs,
src/fault_tree_normalizer.rs and src/modularizer.rs.  A basic event
carries its name, the distribution method keyword read from the input
(prob or lambda) and the numeric parameter, exactly as the three-field
BasicEvent payload used by the fault-tree container.  R abstracts the f64
values of the source.  The display-formula field of the wrapper struct is
not modelled (read_from_file never sets it). -/
inductive NodeType (R : Type) where
  | BasicEvent (name : String) (method : String) (value : R)
  | Not (arg : Nat)
  | And (args : List Nat)
  | Or (args : List Nat)
  | Xor (args : List Nat)
  | Vot (k : Int) (args : List Nat)
  | PlaceHolder (name : String) (op : GateOp) (args : List String)
  deriving Repr, DecidableEq

/-- The is_or predicate of src/nodes.rs. -/
def NodeType.is_or {R : Type} : NodeType R → Bool
  | .Or _ => true
  | _ => false

/-- The children method of src/nodes.rs: the list of child NodeIds of a
node.  The source panics on a PlaceHolder, modelled by none. -/
def NodeType.children {R : Type} : NodeType R → Option (List Nat)
  | .PlaceHolder _ _ _ => none
  | .BasicEvent _ _ _ => some []
  | .Not arg => some [arg]
  | .And args => some args
  | .Or args => some args
  | .Xor args => some args
  | .Vot _ args => some args

/-- Predicate: the node is a PlaceHolder. -/
def NodeType.isPlaceHolder {R : Type} : NodeType R → Bool
  | .PlaceHolder _ _ _ => true
  | _ => false

/-- Rust's str to_lowercase, modelled as a character-wise lowercase map. -/
def rustToLowercase (s : String) : String :=
  ⟨s.data.map Char.toLower⟩

/-- The Tseitin rule for an AND node, from tseitin_and of src/nodes.rs:
one clause (not g or c) per child c, then the closing clause
(not c1 or ... or not cn or g). -/
def tseitin_and (self_id : Nat) (args : List Nat) : Formula Nat :=
  let clauses : List (Formula Nat) :=
    args.map (fun nid => Formula.Or [Formula.Not (Formula.Atom self_id), Formula.Atom nid])
  let other : List (Formula Nat) :=
    args.map (fun nid => Formula.Not (Formula.Atom nid)) ++ [Formula.Atom self_id]
  Formula.And (clauses ++ [Formula.Or other])

/-- The Tseitin rule for an OR node, from tseitin_or of src/nodes.rs:
one clause (g or not c) per child c, then the closing clause
(c1 or ... or cn or not g). -/
def tseitin_or (self_id : Nat) (args : List Nat) : Formula Nat :=
  let clauses : List (Formula Nat) :=
    args.map (fun nid => Formula.Or [Formula.Atom self_id, Formula.Not (Formula.Atom nid)])
  let other : List (Formula Nat) :=
    args.map (fun nid => Formula.Atom nid) ++ [Formula.Not (Formula.Atom self_id)]
  Formula.And (clauses ++ [Formula.Or other])

/-- The Tseitin rule for an XOR node, from tseitin_xor of src/nodes.rs.
For each child index i, a clause over all children with the i-th negated in
place plus the positive literal g, then the clause of all children plus
not g, then the clause of all negated children plus not g.  The in-place
negation mirrors the remove-negate-insert sequence of the source. -/
def tseitin_xor (self_id : Nat) (args : List Nat) : Formula Nat :=
  let clause_g_neg : List (Formula Nat) :=
    args.map (fun nid => Formula.Atom nid) ++ [Formula.Not (Formula.Atom self_id)]
  let clause_all_neg : List (Formula Nat) :=
    args.map (fun nid => Formula.Not (Formula.Atom nid)) ++ [Formula.Not (Formula.Atom self_id)]
  let other_clauses : List (List (Formula Nat)) :=
    (List.range args.length).map
      (fun _ => args.map (fun nid => Formula.Atom nid) ++ [Formula.Atom self_id])
  let modified : List (List (Formula Nat)) :=
    other_clauses.enum.map
      (fun ic =>
        ((ic.2.eraseIdx ic.1).insertIdx ic.1 (Formula.negate (ic.2.getD ic.1 Formula._True))))
  let formula : List (Formula Nat) :=
    modified.map Formula.Or ++ [Formula.Or clause_g_neg, Formula.Or clause_all_neg]
  Formula.And formula

/-- The Tseitin rule for a NOT node, from tseitin_not of src/nodes.rs:
the two clauses (g or c) and (not g or not c). -/
def tseitin_not (self_id : Nat) (arg : Nat) : Formula Nat :=
  Formula.And
    [Formula.Or [Formula.Atom self_id, Formula.Atom arg],
     Formula.Or
       [Formula.Not (Formula.Atom self_id), Formula.Not (Formula.Atom arg)]]

/-- The tseitin_transformation method of src/nodes.rs.  A basic event
produces the true formula (no clauses); a PlaceHolder or an unexpanded Vot
gate makes the source panic, modelled by none. -/
def tseitin_transformation {R : Type} (node : NodeType R) (self_id : Nat) :
    Option (Formula Nat) :=
  match node with
  | .PlaceHolder _ _ _ => none
  | .BasicEvent _ _ _ => some Formula._True
  | .Not arg => some (tseitin_not self_id arg)
  | .And args => some (tseitin_and self_id args)
  | .Or args => some (tseitin_or self_id args)
  | .Xor args => some (tseitin_xor self_id args)
  | .Vot _ _ => none

/-- The fault-tree container of src/fault_tree.rs: the indexed node
container, the root id and the negate_or flag.  The atomic node counter of
the source always equals the container length (nodes are only appended);
functions that read it take the length. -/
structure FaultTree (R : Type) where
  nodes : List (NodeType R)
  root_id : Nat
  negate_or : Bool

/-- The per-node dispatch loop of apply_tseitin of src/fault_tree.rs:
fold the Tseitin formulas of the listed (id, node) pairs into the conjunct
accumulator; an And result extends the accumulator with its conjuncts, an
Or result is pushed as one clause, a _True result adds nothing, and any
other result (including a source panic) is a failure. -/
def tseitinFold {R : Type} (acc : List (Formula Nat)) :
    List (Nat × NodeType R) → Option (List (Formula Nat))
  | [] => some acc
  | (nid, node) :: rest =>
    match tseitin_transformation node nid with
    | some (Formula.And or_args) => tseitinFold (acc ++ or_args) rest
    | some (Formula.Or lits) => tseitinFold (acc ++ [Formula.Or lits]) rest
    | some Formula._True => tseitinFold acc rest
    | _ => none

/-- apply_tseitin of src/fault_tree.rs: the root unit clause (negated when
negate_or is set and the root is an OR gate) followed by the Tseitin
clauses of every node in index order. -/
def apply_tseitin {R : Type} (ft : FaultTree R) : Option (Formula Nat) :=
  match ft.nodes.get? ft.root_id with
  | none => none
  | some rootNode =>
    let args : List (Formula Nat) :=
      if rootNode.is_or && ft.negate_or then
        [Formula.Not (Formula.Atom ft.root_id)]
      else
        [Formula.Atom ft.root_id]
    (tseitinFold args ft.nodes.enum).map Formula.And

/-- The worklist loop of apply_tseitin_used_only of src/fault_tree.rs.
The source drains the children vector into the seen vector with
Vec append (which moves all elements out, leaving children empty) and only
then filters it for the worklist, so the filtered list is always computed
from the emptied vector; the embedding reproduces that order of
operations.  The loop pops from the back of the worklist as Vec pop does.
Fuel bounds the iteration count; exhausted fuel with a nonempty worklist is
a failure. -/
def usedOnlyLoop {R : Type} (nodes : List (NodeType R)) :
    Nat → List Nat → List Nat → List (Formula Nat) →
    Option (List (Formula Nat))
  | 0, to_process, _, args => if to_process.isEmpty then some args else none
  | fuel + 1, to_process, seen, args =>
    match to_process.getLast? with
    | none => some args
    | some nid =>
      let rest := to_process.dropLast
      match nodes.get? nid with
      | none => none
      | some node =>
        match node.children with
        | none => none
        | some children =>
          let seen2 := seen ++ children
          let drained : List Nat := []
          let unseen_children := drained.filter (fun cid => seen2.contains cid)
          let to_process2 := rest ++ unseen_children
          match tseitin_transformation node nid with
          | some (Formula.And or_args) =>
            usedOnlyLoop nodes fuel to_process2 seen2 (args ++ or_args)
          | some (Formula.Or lits) =>
            usedOnlyLoop nodes fuel to_process2 seen2 (args ++ [Formula.Or lits])
          | some Formula._True => usedOnlyLoop nodes fuel to_process2 seen2 args
          | _ => none

/-- apply_tseitin_used_only of src/fault_tree.rs: the root unit clause
followed by the clauses collected by the worklist loop started at the
root. -/
def apply_tseitin_used_only {R : Type} (ft : FaultTree R) (fuel : Nat) :
    Option (Formula Nat) :=
  match ft.nodes.get? ft.root_id with
  | none => none
  | some rootNode =>
    let args : List (Formula Nat) :=
      if rootNode.is_or && ft.negate_or then
        [Formula.Not (Formula.Atom ft.root_id)]
      else
        [Formula.Atom ft.root_id]
    (usedOnlyLoop ft.nodes fuel [ft.root_id] [ft.root_id] args).map Formula.And

/-- The conjunction apply_tseitin_used_only actually returns, written
directly: the root unit clause together with the Tseitin clauses of the
root node itself and of no other node. -/
def rootOnlyFormula {R : Type} (ft : FaultTree R) : Option (Formula Nat) :=
  match ft.nodes.get? ft.root_id with
  | none => none
  | some rootNode =>
    let args : List (Formula Nat) :=
      if rootNode.is_or && ft.negate_or then
        [Formula.Not (Formula.Atom ft.root_id)]
      else
        [Formula.Atom ft.root_id]
    match rootNode.children with
    | none => none
    | some _ =>
      match tseitin_transformation rootNode ft.root_id with
      | some (Formula.And or_args) => some (Formula.And (args ++ or_args))
      | some (Formula.Or lits) => some (Formula.And (args ++ [Formula.Or lits]))
      | some Formula._True => some (Formula.And args)
      | _ => none

/-- The loop of be_weights in get_weights of src/fault_tree.rs: for each
basic-event node at container index i, one weight pair for CNF variable
i + 1 whose positive weight is the stored probability for method prob, or
one minus the exponential decay for method lambda (any other method makes
the source panic), and whose negative weight is one minus the positive
weight.  The library exponential is abstracted by expf. -/
def beWeightsLoop {R : Type} [CommRing R] (expf : R → R) (timepoint : R) :
    List (Nat × NodeType R) → Option (List (Nat × R × R))
  | [] => some []
  | (i, node) :: rest =>
    match node with
    | .BasicEvent _ method value =>
      if rustToLowercase method = "prob" then
        (beWeightsLoop expf timepoint rest).map
          (fun l => (i + 1, value, 1 - value) :: l)
      else if rustToLowercase method = "lambda" then
        let prob : R := 1 - expf (-value * timepoint)
        (beWeightsLoop expf timepoint rest).map
          (fun l => (i + 1, prob, 1 - prob) :: l)
      else none
    | _ => beWeightsLoop expf timepoint rest

/-- get_weights of src/fault_tree.rs.  Weight lines are modelled as
structured triples (CNF variable, positive-literal weight,
negative-literal weight) instead of DIMACS strings.  Gate weights: every
variable in 1..n_vars whose node index is not a basic event gets the pair
(1, 1).  Basic-event weights: as in beWeightsLoop.  The pair
(gate weights, basic-event weights) mirrors the source's return order. -/
def get_weights {R : Type} [CommRing R] (expf : R → R)
    (nodes : List (NodeType R)) (n_vars : Nat) (timepoint : R) :
    Option (List (Nat × R × R) × List (Nat × R × R)) :=
  let used_ids : List Nat :=
    nodes.enum.filterMap
      (fun p => match p.2 with
        | NodeType.BasicEvent _ _ _ => some p.1
        | _ => none)
  let gate_weights : List (Nat × R × R) :=
    (List.range n_vars).filterMap
      (fun i => if used_ids.contains i then none else some (i + 1, (1 : R), (1 : R)))
  (beWeightsLoop expf timepoint nodes.enum).map (fun bw => (gate_weights, bw))

/-- The combinations adaptor of the itertools crate as used by
fill_placeholders: all size-m sublists of the input, elements kept in
input order, enumerated lexicographically by position. -/
def combinations {α : Type} : Nat → List α → List (List α)
  | 0, _ => [[]]
  | _ + 1, [] => []
  | m + 1, x :: xs =>
    (combinations m xs).map (fun s => x :: s) ++ combinations (m + 1) xs

/-- The k-of-n expansion loop of fill_placeholders
(src/fault_tree_normalizer.rs, keep_vot disabled, 1 < k < n).  The
argument list is processed from the back, as Vec pop does, so this
function takes the reversed argument list: while more than m arguments
remain, pop the last one as the pivot and emit, for every size-m
combination of the remaining arguments, the children list of one auxiliary
OR gate: the pivot followed by the combination. -/
def votAuxRev {α : Type} (m : Nat) : List α → List (List α)
  | [] => []
  | x :: rest =>
    if rest.length + 1 > m then
      ((combinations m rest.reverse).map (fun s => x :: s)) ++ votAuxRev m rest
    else []

/-- The children lists of the auxiliary OR gates produced by the k-of-n
expansion, in emission order, for clause size m = n - k. -/
def votClauses {α : Type} (m : Nat) (args : List α) : List (List α) :=
  votAuxRev m args.reverse

theorem usedOnlyLoop_nil {R : Type} (nodes : List (NodeType R)) (fuel : Nat)
    (seen : List Nat) (args : List (Formula Nat)) :
    usedOnlyLoop nodes fuel [] seen args = some args := by
  cases fuel <;> simp [usedOnlyLoop]

/-- Claim C4: the Tseitin step emits, for an AND gate g with children
c1..cn, exactly the clauses (not g or ci) for each i plus
(g or not c1 or ... or not cn); for an OR gate exactly (g or not ci) for
each i plus (not g or c1 or ... or cn); for a NOT gate with child c
exactly (g or c) and (not g or not c); and for a basic event no clauses at
all (the true formula, which contributes no conjunct). -/
theorem claim_C4 {R : Type} (g c : Nat) (args : List Nat)
    (name method : String) (value : R) :
    tseitin_transformation (NodeType.And (R := R) args) g
      = some (Formula.And
          (args.map (fun ci => Formula.Or [Formula.Not (Formula.Atom g), Formula.Atom ci])
            ++ [Formula.Or (args.map (fun ci => Formula.Not (Formula.Atom ci))
                  ++ [Formula.Atom g])]))
    ∧ tseitin_transformation (NodeType.Or (R := R) args) g
      = some (Formula.And
          (args.map (fun ci => Formula.Or [Formula.Atom g, Formula.Not (Formula.Atom ci)])
            ++ [Formula.Or (args.map (fun ci => Formula.Atom ci)
                  ++ [Formula.Not (Formula.Atom g)])]))
    ∧ tseitin_transformation (NodeType.Not (R := R) c) g
      = some (Formula.And
          [Formula.Or [Formula.Atom g, Formula.Atom c],
           Formula.Or [Formula.Not (Formula.Atom g), Formula.Not (Formula.Atom c)]])
    ∧ tseitin_transformation (NodeType.BasicEvent (R := R) name method value) g
      = some Formula._True :=
  ⟨rfl, rfl, rfl, rfl⟩

/-- Claim C10: apply_tseitin_used_only returns the conjunction of only the
root's unit literal (negated when negate_or is set and the root is an OR)
and the Tseitin clauses of the root node itself; no clause of any other
node is emitted, because Vec append drains each node's children into the
seen vector before the unseen filter runs, so the worklist never grows
beyond the root. -/
theorem claim_C10 {R : Type} (ft : FaultTree R) (fuel : Nat) (hfuel : 1 ≤ fuel) :
    apply_tseitin_used_only ft fuel = rootOnlyFormula ft := by
  cases fuel with
  | zero => omega
  | succ n =>
    unfold apply_tseitin_used_only rootOnlyFormula
    cases hr : ft.nodes.get? ft.root_id with
    | none => rfl
    | some rootNode =>
      simp only [usedOnlyLoop, List.getLast?_singleton, List.dropLast_single, hr,
        List.filter_nil, List.append_nil, List.nil_append]
      cases hc : rootNode.children with
      | none => rfl
      | some children =>
        cases ht : tseitin_transformation rootNode ft.root_id with
        | none => rfl
        | some f =>
          cases f <;> simp [usedOnlyLoop_nil]

theorem claim_C10_witness :
    (1 : Nat) ≤ 1 ∧
      apply_tseitin_used_only
        (FaultTree.mk (R := ℚ)
          [NodeType.Or [1, 2], NodeType.BasicEvent "a" "prob" (1 / 2),
           NodeType.BasicEvent "b" "prob" (1 / 2)] 0 false) 1
      = rootOnlyFormula
          (FaultTree.mk (R := ℚ)
            [NodeType.Or [1, 2], NodeType.BasicEvent "a" "prob" (1 / 2),
             NodeType.BasicEvent "b" "prob" (1 / 2)] 0 false) :=
  ⟨Nat.le_refl 1, claim_C10 _ 1 (Nat.le_refl 1)⟩

theorem countP_add_countP_not {α : Type} (f : α → Bool) (l : List α) :
    l.countP f + l.countP (fun a => !f a) = l.length := by
  induction l with
  | nil => rfl
  | cons a l ih =>
    simp only [List.countP_cons, List.length_cons]
    cases h : f a <;> simp [h] <;> omega

theorem combinations_sound {α : Type} :
    ∀ (l : List α) (m : Nat) (S : List α), S ∈ combinations m l →
      S.length = m ∧ S.Sublist l := by
  intro l
  induction l with
  | nil =>
    intro m S hS
    cases m with
    | zero =>
      simp only [combinations, List.mem_singleton] at hS
      subst hS; exact ⟨rfl, List.Sublist.refl _⟩
    | succ m => simp [combinations] at hS
  | cons x xs ih =>
    intro m S hS
    cases m with
    | zero =>
      simp only [combinations, List.mem_singleton] at hS
      subst hS; exact ⟨rfl, List.nil_sublist _⟩
    | succ m =>
      simp only [combinations, List.mem_append, List.mem_map] at hS
      rcases hS with ⟨S', hS', rfl⟩ | hS
      · obtain ⟨hlen, hsub⟩ := ih m S' hS'
        exact ⟨by simp [hlen], List.Sublist.cons₂ x hsub⟩
      · obtain ⟨hlen, hsub⟩ := ih (m + 1) S hS
        exact ⟨hlen, hsub.cons x⟩

theorem combinations_complete {α : Type} (q : α → Bool) :
    ∀ (l : List α) (m : Nat), m ≤ l.countP q →
      ∃ S ∈ combinations m l, ∀ a ∈ S, q a = true := by
  intro l
  induction l with
  | nil =>
    intro m hm
    simp only [List.countP_nil, Nat.le_zero] at hm
    subst hm
    exact ⟨[], by simp [combinations]⟩
  | cons x xs ih =>
    intro m hm
    cases m with
    | zero => exact ⟨[], by simp [combinations]⟩
    | succ m =>
      rw [List.countP_cons] at hm
      cases hx : q x with
      | true =>
        have hm' : m ≤ xs.countP q := by rw [hx] at hm; simp at hm; omega
        obtain ⟨S, hS, hall⟩ := ih m hm'
        refine ⟨x :: S, ?_, ?_⟩
        · simp only [combinations, List.mem_append, List.mem_map]
          exact Or.inl ⟨S, hS, rfl⟩
        · intro a ha
          rcases List.mem_cons.mp ha with rfl | ha
          · exact hx
          · exact hall a ha
      | false =>
        have hm' : m + 1 ≤ xs.countP q := by rw [hx] at hm; simp at hm; omega
        obtain ⟨S, hS, hall⟩ := ih (m + 1) hm'
        refine ⟨S, ?_, hall⟩
        simp only [combinations, List.mem_append]
        exact Or.inr hS

theorem votAuxRev_sound {α : Type} (m : Nat) :
    ∀ (l : List α) (c : List α), c ∈ votAuxRev m l →
      c.length = m + 1 ∧ (∀ q : α → Bool, c.countP q ≤ l.countP q) ∧
        ∀ a ∈ c, a ∈ l := by
  intro l
  induction l with
  | nil => intro c hc; simp [votAuxRev] at hc
  | cons x rest ih =>
    intro c hc
    simp only [votAuxRev] at hc
    by_cases hlen : rest.length + 1 > m
    · simp only [if_pos hlen, List.mem_append, List.mem_map] at hc
      rcases hc with ⟨S, hS, rfl⟩ | hc
      · obtain ⟨hSlen, hSsub⟩ := combinations_sound rest.reverse m S hS
        refine ⟨by simp [hSlen], ?_, ?_⟩
        · intro q
          have h1 : S.countP q ≤ rest.countP q := by
            have := hSsub.countP_le q
            rwa [List.countP_reverse] at this
          rw [List.countP_cons, List.countP_cons]
          cases q x <;> simp <;> omega
        · intro a ha
          rcases List.mem_cons.mp ha with rfl | ha
          · exact List.mem_cons_self a rest
          · have : a ∈ rest.reverse := hSsub.mem ha
            rw [List.mem_reverse] at this
            exact List.mem_cons_of_mem x this
      · obtain ⟨hclen, hcount, hmem⟩ := ih c hc
        refine ⟨hclen, ?_, fun a ha => List.mem_cons_of_mem x (hmem a ha)⟩
        intro q
        have := hcount q
        rw [List.countP_cons]
        omega
    · simp [if_neg hlen] at hc

theorem votAuxRev_complete {α : Type} (m : Nat) (q : α → Bool) :
    ∀ (l : List α), m + 1 ≤ l.countP q →
      ∃ c ∈ votAuxRev m l, ∀ a ∈ c, q a = true := by
  intro l
  induction l with
  | nil => intro h; simp at h
  | cons x rest ih =>
    intro h
    have hlen : rest.length + 1 > m := by
      have h1 : (x :: rest).countP q ≤ (x :: rest).length := List.countP_le_length q
      simp only [List.length_cons] at h1
      omega
    cases hx : q x with
    | true =>
      have hm' : m ≤ rest.countP q := by
        rw [List.countP_cons, hx] at h; simp at h; omega
      have hm'' : m ≤ rest.reverse.countP q := by rwa [List.countP_reverse]
      obtain ⟨S, hS, hall⟩ := combinations_complete q rest.reverse m hm''
      refine ⟨x :: S, ?_, ?_⟩
      · simp only [votAuxRev, if_pos hlen, List.mem_append, List.mem_map]
        exact Or.inl ⟨S, hS, rfl⟩
      · intro a ha
        rcases List.mem_cons.mp ha with rfl | ha
        · exact hx
        · exact hall a ha
    | false =>
      have hm' : m + 1 ≤ rest.countP q := by
        rw [List.countP_cons, hx] at h; simp at h; omega
      obtain ⟨c, hc, hall⟩ := ih hm'
      refine ⟨c, ?_, hall⟩
      simp only [votAuxRev, if_pos hlen, List.mem_append]
      exact Or.inr hc

/-- Claim C1: for a k-of-n placeholder with 1 < k < n and n arguments,
resolved without keep_vot, each auxiliary OR gate created by the expansion
has exactly n - k + 1 of the original arguments as children, and the
conjunction of the auxiliary OR gates is logically equivalent to at least
k of the n arguments being true. -/
theorem claim_C1 {α : Type} (args : List α) (k : Nat) (f : α → Bool)
    (hk1 : 1 < k) (hkn : k < args.length) :
    (∀ c ∈ votClauses (args.length - k) args,
        c.length = args.length - k + 1 ∧ ∀ a ∈ c, a ∈ args)
    ∧ ((∀ c ∈ votClauses (args.length - k) args, ∃ a ∈ c, f a = true)
        ↔ k ≤ args.countP f) := by
  have hsum := countP_add_countP_not f args
  constructor
  · intro c hc
    obtain ⟨hlen, _, hmem⟩ := votAuxRev_sound (args.length - k) args.reverse c hc
    exact ⟨hlen, fun a ha => List.mem_reverse.mp (hmem a ha)⟩
  · constructor
    · intro hsat
      by_contra hlt
      push_neg at hlt
      have hnotf : (args.length - k) + 1 ≤ args.countP (fun a => !f a) := by omega
      have hnotf' : (args.length - k) + 1 ≤ args.reverse.countP (fun a => !f a) := by
        rwa [List.countP_reverse]
      obtain ⟨c, hc, hall⟩ :=
        votAuxRev_complete (args.length - k) (fun a => !f a) args.reverse hnotf'
      obtain ⟨a, ha, hfa⟩ := hsat c hc
      have := hall a ha
      simp [hfa] at this
    · intro hk c hc
      by_contra hnone
      push_neg at hnone
      obtain ⟨hlen, hcount, _⟩ := votAuxRev_sound (args.length - k) args.reverse c hc
      have hallneg : ∀ a ∈ c, (fun a => !f a) a = true := by
        intro a ha
        have := hnone a ha
        simp only [Bool.not_eq_true] at this ⊢
        simp [this]
      have h1 : c.countP (fun a => !f a) = c.length := List.countP_eq_length.mpr hallneg
      have h2 : c.countP (fun a => !f a) ≤ args.reverse.countP (fun a => !f a) :=
        hcount _
      rw [List.countP_reverse] at h2
      omega

theorem claim_C1_witness :
    (1 : Nat) < 2 ∧ 2 < ([0, 1, 2] : List Nat).length ∧
      ((∀ c ∈ votClauses (([0, 1, 2] : List Nat).length - 2) [0, 1, 2],
          c.length = ([0, 1, 2] : List Nat).length - 2 + 1 ∧ ∀ a ∈ c, a ∈ [0, 1, 2])
        ∧ ((∀ c ∈ votClauses (([0, 1, 2] : List Nat).length - 2) [0, 1, 2],
              ∃ a ∈ c, (fun a => decide (a ≤ 1)) a = true)
            ↔ 2 ≤ ([0, 1, 2] : List Nat).countP (fun a => decide (a ≤ 1)))) :=
  ⟨by decide, by decide,
    claim_C1 [0, 1, 2] 2 (fun a => decide (a ≤ 1)) (by decide) (by decide)⟩

theorem any_map_general {α β : Type} (f : α → β) (p : β → Bool) :
    ∀ l : List α, (l.map f).any p = l.any (fun a => p (f a)) := by
  intro l
  induction l with
  | nil => rfl
  | cons a l ih => simp [List.any_cons, ih]

theorem insertIdx_eraseIdx_set {α : Type} :
    ∀ (l : List α) (i : Nat) (x : α), i < l.length →
      (l.eraseIdx i).insertIdx i x = l.set i x := by
  intro l
  induction l with
  | nil => intro i x h; simp at h
  | cons a t ih =>
    intro i x h
    cases i with
    | zero => rfl
    | succ i =>
      simp only [List.eraseIdx_cons_succ, List.insertIdx_succ_cons, List.set_cons_succ]
      rw [ih i x (by simpa using h)]

theorem insertIdx_append_left {α : Type} :
    ∀ (l : List α) (i : Nat) (x : α) (l' : List α), i ≤ l.length →
      (l ++ l').insertIdx i x = l.insertIdx i x ++ l' := by
  intro l
  induction l with
  | nil =>
    intro i x l' h
    simp only [List.length_nil, Nat.le_zero] at h
    subst h
    rfl
  | cons a t ih =>
    intro i x l' h
    cases i with
    | zero => rfl
    | succ i =>
      simp only [List.cons_append, List.insertIdx_succ_cons]
      rw [ih i x l' (by simpa using h)]

theorem count_set_true {v : List Bool} :
    ∀ (i : Nat) (b : Bool), i < v.length →
      (v.set i b).count true + (if v.getD i false then 1 else 0)
        = v.count true + (if b then 1 else 0) := by
  induction v with
  | nil => intro i b h; simp at h
  | cons x t ih =>
    intro i b h
    cases i with
    | zero =>
      simp only [List.set_cons_zero, List.getD_cons_zero, List.count_cons]
      cases x <;> cases b <;> simp
    | succ i =>
      have ht := ih i b (by simpa using h)
      simp only [List.set_cons_succ, List.getD_cons_succ, List.count_cons]
      cases x <;> cases b <;> simp at ht ⊢ <;> omega

theorem any_id_iff_count_pos (v : List Bool) :
    v.any id = true ↔ 0 < v.count true := by
  rw [List.any_eq_true, List.count_pos_iff]
  constructor
  · rintro ⟨x, hx, hid⟩
    simp only [id] at hid
    subst hid; exact hx
  · intro h; exact ⟨true, h, rfl⟩

theorem set_not_any (v : List Bool) :
    (∀ i < v.length, (v.set i (!(v.getD i false))).any id = true)
      ↔ v.count true ≠ 1 := by
  constructor
  · intro h h1
    have hpos : 0 < v.count true := by omega
    obtain ⟨i, hi, hvi⟩ := List.getElem_of_mem (List.count_pos_iff.mp hpos)
    have hgd : v.getD i false = true := by rw [List.getD_eq_getElem _ _ hi, hvi]
    have hany := (any_id_iff_count_pos _).mp (h i hi)
    rw [hgd] at hany
    have hset := count_set_true i (!true) hi
    rw [hgd] at hset
    simp only [Bool.not_true] at hany hset
    simp at hset
    omega
  · intro hne i hi
    rw [any_id_iff_count_pos]
    cases hv : v.getD i false with
    | false =>
      have hset := count_set_true i (!false) hi
      rw [hv] at hset
      simp only [Bool.not_false] at hset ⊢
      simp at hset
      omega
    | true =>
      have hset := count_set_true i (!true) hi
      rw [hv] at hset
      simp only [Bool.not_true] at hset ⊢
      simp at hset
      have hmem : true ∈ v := by
        rw [List.getD_eq_getElem _ _ hi] at hv
        exact hv ▸ List.getElem_mem hi
      have hcp : 0 < v.count true := List.count_pos_iff.mpr hmem
      omega

theorem all_map_general {α β : Type} (f : α → β) (p : β → Bool) :
    ∀ l : List α, (l.map f).all p = l.all (fun a => p (f a)) := by
  intro l
  induction l with
  | nil => rfl
  | cons a l ih => simp [List.all_cons, ih]

theorem enum_map_const {α : Type} (n : Nat) (c : α) :
    ((List.range n).map (fun _ => c)).enum = (List.range n).map (fun i => (i, c)) := by
  rw [List.enum_eq_zip_range, List.length_map, List.length_range]
  have h := List.zip_map' (id : Nat → Nat) (fun _ => c) (List.range n)
  simpa using h

theorem tseitin_xor_shape (g : Nat) (args : List Nat) :
    tseitin_xor g args = Formula.And
      (((List.range args.length).map (fun i =>
          Formula.Or ((args.map Formula.Atom).set i
              (Formula.Not (Formula.Atom (args.getD i 0))) ++ [Formula.Atom g])))
        ++ [Formula.Or (args.map Formula.Atom ++ [Formula.Not (Formula.Atom g)]),
            Formula.Or (args.map (fun a => Formula.Not (Formula.Atom a))
              ++ [Formula.Not (Formula.Atom g)])]) := by
  unfold tseitin_xor
  dsimp only
  congr 1
  congr 1
  rw [enum_map_const, List.map_map, List.map_map]
  apply List.map_congr_left
  intro i hi
  rw [List.mem_range] at hi
  have hlen : i < (args.map Formula.Atom).length := by simpa using hi
  simp only [Function.comp]
  rw [List.getD_append _ _ _ _ hlen]
  have hgd : (args.map Formula.Atom).getD i Formula._True = Formula.Atom (args.getD i 0) := by
    rw [List.getD_eq_getElem _ _ hlen, List.getElem_map, ← List.getD_eq_getElem _ _ hi]
  rw [hgd]
  rw [List.eraseIdx_append_of_lt_length hlen]
  rw [insertIdx_append_left _ _ _ _
    (by rw [List.length_eraseIdx, if_pos hlen]; simp only [List.length_map]; omega)]
  rw [insertIdx_eraseIdx_set _ _ _ hlen]
  simp only [Formula.negate]

theorem evalOr_append_unit {A : Type} (σ : A → Bool) (Y : List (Formula A))
    (φ : Formula A) :
    (Formula.Or (Y ++ [φ])).eval σ = (Y.any (Formula.eval σ) || φ.eval σ) := by
  rw [Formula.eval_Or_eq, List.any_append, List.any_cons, List.any_nil, Bool.or_false]

theorem eval_Atom {A : Type} (σ : A → Bool) (a : A) :
    (Formula.Atom a).eval σ = σ a := by
  simp [Formula.eval]

theorem eval_NotAtom {A : Type} (σ : A → Bool) (a : A) :
    (Formula.Not (Formula.Atom a)).eval σ = !σ a := by
  simp [Formula.eval]

theorem any_eq_map_id {α : Type} (p : α → Bool) :
    ∀ l : List α, l.any p = (l.map p).any id := by
  intro l
  induction l with
  | nil => rfl
  | cons a l ih => simp [List.any_cons, ih]

theorem any_eval_map_Atom (σ : Nat → Bool) (args : List Nat) :
    (args.map Formula.Atom).any (Formula.eval σ) = args.any σ := by
  rw [any_map_general]
  simp only [eval_Atom]

theorem any_eval_map_NotAtom (σ : Nat → Bool) (args : List Nat) :
    (args.map (fun a => Formula.Not (Formula.Atom a))).any (Formula.eval σ)
      = args.any (fun a => !σ a) := by
  rw [any_map_general]
  simp only [eval_NotAtom]

theorem any_eval_set (σ : Nat → Bool) (args : List Nat) (i : Nat)
    (φ : Formula Nat) :
    ((args.map Formula.Atom).set i φ).any (Formula.eval σ)
      = ((args.map σ).set i (φ.eval σ)).any id := by
  rw [any_eq_map_id, List.map_set, List.map_map]
  have hmm : args.map (Formula.eval σ ∘ Formula.Atom) = args.map σ := by
    apply List.map_congr_left
    intro a _
    exact eval_Atom σ a
  rw [hmm]

theorem getD_map_sigma (σ : Nat → Bool) (args : List Nat) (i : Nat)
    (hi : i < args.length) :
    (args.map σ).getD i false = σ (args.getD i 0) := by
  rw [List.getD_eq_getElem _ _ (by simpa using hi), List.getElem_map,
    ← List.getD_eq_getElem _ _ hi]

theorem tseitin_xor_sat (g : Nat) (args : List Nat) (σ : Nat → Bool) :
    (tseitin_xor g args).eval σ = true ↔
      ((σ g = true → (args.any σ = true ∧ args.any (fun a => !σ a) = true))
        ∧ (σ g = false → args.countP σ ≠ 1)) := by
  have hstep : (tseitin_xor g args).eval σ = true ↔
      ((∀ i < args.length,
          (((args.map σ).set i (!σ (args.getD i 0))).any id || σ g) = true)
        ∧ (args.any σ || !σ g) = true
        ∧ (args.any (fun a => !σ a) || !σ g) = true) := by
    rw [tseitin_xor_shape, Formula.eval_And_eq, List.all_append, List.all_cons,
      List.all_cons, List.all_nil, Bool.and_true, Bool.and_eq_true, Bool.and_eq_true]
    rw [all_map_general, evalOr_append_unit, evalOr_append_unit,
      any_eval_map_Atom, any_eval_map_NotAtom, eval_NotAtom]
    constructor
    · rintro ⟨h1, h2, h3⟩
      refine ⟨?_, h2, h3⟩
      intro i hi
      rw [List.all_eq_true] at h1
      have := h1 i (List.mem_range.mpr hi)
      rw [evalOr_append_unit, any_eval_set, eval_NotAtom, eval_Atom] at this
      exact this
    · rintro ⟨h1, h2, h3⟩
      refine ⟨?_, h2, h3⟩
      rw [List.all_eq_true]
      intro i hi
      rw [List.mem_range] at hi
      rw [evalOr_append_unit, any_eval_set, eval_NotAtom, eval_Atom]
      exact h1 i hi
  have hcount : (args.map σ).count true = args.countP σ := by
    rw [List.count_eq_countP, List.countP_map]
    apply List.countP_congr
    intro a _
    simp
  have hbridge :
      (∀ i < args.length, (((args.map σ).set i (!σ (args.getD i 0))).any id) = true)
        ↔ args.countP σ ≠ 1 := by
    rw [← hcount, ← set_not_any (args.map σ)]
    constructor
    · intro h i hi
      rw [List.length_map] at hi
      have := h i hi
      rw [getD_map_sigma σ args i hi]
      exact this
    · intro h i hi
      have := h i (by simpa using hi)
      rw [getD_map_sigma σ args i hi] at this
      exact this
  rw [hstep]
  constructor
  · rintro ⟨h1, h2, h3⟩
    constructor
    · intro hg
      rw [hg] at h2 h3
      simp only [Bool.not_true, Bool.or_false] at h2 h3
      exact ⟨h2, h3⟩
    · intro hg
      rw [hg] at h1
      refine hbridge.mp ?_
      intro i hi
      have := h1 i hi
      simpa using this
  · rintro ⟨hpos, hneg⟩
    refine ⟨?_, ?_, ?_⟩
    · intro i hi
      cases hg : σ g
      · have := hbridge.mpr (hneg hg) i hi
        simp only [hg, Bool.or_false]
        exact this
      · simp [hg]
    · cases hg : σ g
      · simp [hg]
      · simp [hg, (hpos hg).1]
    · cases hg : σ g
      · simp [hg]
      · simp [hg, (hpos hg).2]

/-- Claim C3 counterexample: under the all-true assignment, the XOR gate
variable 3 equals the odd parity of its three children 0, 1, 2, yet the
emitted Tseitin clauses are not satisfied (the all-negated closing clause
fails), so for three or more children the clauses are not equivalent to
g holding exactly the odd parity of the children. -/
theorem claim_C3_counterexample :
    (tseitin_xor 3 [0, 1, 2]).eval (fun _ => true) = false
      ∧ (fun _ => true : Nat → Bool) 3
          = (([0, 1, 2] : List Nat).map (fun _ => true : Nat → Bool)).foldl
              Bool.xor false :=
  ⟨by decide, by decide⟩

/-- Claim C3, amended: for an XOR gate g with children c1..cn (n at least
2), the emitted Tseitin clauses are satisfied exactly by the assignments in
which, when g is true, at least one child is true and at least one child is
false, and, when g is false, the number of true children is not exactly
one.  For n = 2 this coincides with g holding the odd parity of the
children; for n of 3 or more it does not. -/
theorem claim_C3_amended (g : Nat) (args : List Nat) (σ : Nat → Bool)
    (hn : 2 ≤ args.length) :
    (tseitin_xor g args).eval σ = true ↔
      ((σ g = true → (args.any σ = true ∧ args.any (fun a => !σ a) = true))
        ∧ (σ g = false → args.countP σ ≠ 1)) :=
  tseitin_xor_sat g args σ

theorem claim_C3_amended_witness :
    2 ≤ ([0, 1] : List Nat).length ∧
      ((tseitin_xor 2 [0, 1]).eval (fun a => decide (a = 0)) = true ↔
        (((fun a => decide (a = 0) : Nat → Bool) 2 = true →
            (([0, 1] : List Nat).any (fun a => decide (a = 0)) = true ∧
              ([0, 1] : List Nat).any (fun a => !(decide (a = 0))) = true))
          ∧ ((fun a => decide (a = 0) : Nat → Bool) 2 = false →
              ([0, 1] : List Nat).countP (fun a => decide (a = 0)) ≠ 1))) :=
  ⟨by decide, claim_C3_amended 2 [0, 1] (fun a => decide (a = 0)) (by decide)⟩

/-- The four WMC solver backends of src/solver.rs. -/
inductive SolverBackend where
  | sharpsatTD
  | gpmc
  | addmc
  | dmc
  deriving Repr, DecidableEq

/-- Whether the backend's run_model writes the CNF to a temporary file
(SharpSAT-TD and DMC) instead of streaming it on stdin (GPMC, ADDMC). -/
def SolverBackend.usesTmpFile : SolverBackend → Bool
  | .sharpsatTD => true
  | .dmc => true
  | .gpmc => false
  | .addmc => false

/-- Outcome of one run_model invocation once the child process has exited,
as decided from its stderr.  The ok payload records whether the backend
removed its temporary CNF file on that path (the fs remove_file call). -/
inductive RunOutcome where
  | ok (removesTmpFile : Bool)
  | timeoutErr (msg : String)
  | hardErr (msg : String)
  deriving Repr, DecidableEq

/-- The stderr dispatch shared by every run_model implementation in
src/solver.rs: lowercase the captured stderr; empty means success (and
only the SharpSAT-TD backend then removes its temporary CNF file; the DMC
backend writes one but never removes it; GPMC and ADDMC never create one);
the exact string of killed followed by a newline means the external
timeout killed the solver; anything else is a hard error with the
backend's message (SharpSAT-TD uses a message ending in three dots, the
others in one dot). -/
def run_model_stderr (b : SolverBackend) (stderr : String) : RunOutcome :=
  let se := rustToLowercase stderr
  if se = "" then
    RunOutcome.ok
      (match b with
        | SolverBackend.sharpsatTD => true
        | _ => false)
  else if se = "killed\n" then
    RunOutcome.timeoutErr "Execution timeout."
  else
    RunOutcome.hardErr
      (match b with
        | SolverBackend.sharpsatTD => "Something went wrong..."
        | _ => "Something went wrong.")

theorem rustToLowercase_empty_iff (s : String) :
    rustToLowercase s = "" ↔ s = "" := by
  constructor
  · intro h
    have hdata : s.data.map Char.toLower = [] := congrArg String.data h
    rcases s with ⟨data⟩
    cases data with
    | nil => rfl
    | cons c cs => simp at hdata
  · intro h
    subst h
    rfl

/-- Claim C9 counterexample: DMC is a file-based backend (run_model writes
the CNF to a temporary file), yet on the success path (empty stderr) it
does not remove the temporary file, contradicting the claim that in the
file-based backends the temporary CNF file is removed on success. -/
theorem claim_C9_counterexample :
    SolverBackend.dmc.usesTmpFile = true
      ∧ run_model_stderr SolverBackend.dmc "" = RunOutcome.ok false :=
  ⟨by decide, by decide⟩

/-- Claim C9, amended: a run_model call succeeds exactly when the spawned
process's stderr is empty, and on that path the SharpSAT-TD backend (but
not the file-based DMC backend) removes the temporary CNF file; it returns
a timeout error exactly when the stderr, lowercased, equals the string
killed followed by a newline; and any other nonempty stderr yields the
backend's distinct hard error. -/
theorem claim_C9_amended (b : SolverBackend) (stderr : String) :
    ((∃ rm, run_model_stderr b stderr = RunOutcome.ok rm) ↔ stderr = "")
    ∧ (run_model_stderr b stderr = RunOutcome.timeoutErr "Execution timeout."
        ↔ rustToLowercase stderr = "killed\n")
    ∧ (rustToLowercase stderr ≠ "" → rustToLowercase stderr ≠ "killed\n" →
        run_model_stderr b stderr
          = RunOutcome.hardErr
              (match b with
                | SolverBackend.sharpsatTD => "Something went wrong..."
                | _ => "Something went wrong."))
    ∧ (stderr = "" →
        run_model_stderr SolverBackend.sharpsatTD stderr = RunOutcome.ok true
          ∧ run_model_stderr SolverBackend.dmc stderr = RunOutcome.ok false) := by
  refine ⟨?_, ?_, ?_, ?_⟩
  · constructor
    · rintro ⟨rm, hrm⟩
      by_cases h0 : rustToLowercase stderr = ""
      · exact (rustToLowercase_empty_iff stderr).mp h0
      · exfalso
        unfold run_model_stderr at hrm
        rw [if_neg h0] at hrm
        by_cases h1 : rustToLowercase stderr = "killed\n" <;>
          simp [h1] at hrm
    · intro h
      subst h
      exact ⟨_, rfl⟩
  · constructor
    · intro hrm
      by_cases h0 : rustToLowercase stderr = ""
      · unfold run_model_stderr at hrm
        rw [if_pos h0] at hrm
        exact absurd hrm (by simp)
      · by_cases h1 : rustToLowercase stderr = "killed\n"
        · exact h1
        · unfold run_model_stderr at hrm
          rw [if_neg h0, if_neg h1] at hrm
          exact absurd hrm (by simp)
    · intro h1
      have h0 : ¬ rustToLowercase stderr = "" := by
        rw [h1]; intro hc; exact absurd hc (by decide)
      unfold run_model_stderr
      rw [if_neg h0, if_pos h1]
  · intro h0 h1
    unfold run_model_stderr
    rw [if_neg h0, if_neg h1]
  · intro h
    subst h
    exact ⟨rfl, rfl⟩

theorem claim_C9_amended_witness :
    ((∃ rm, run_model_stderr SolverBackend.gpmc "KILLED\n" = RunOutcome.ok rm)
        ↔ ("KILLED\n" : String) = "")
    ∧ (run_model_stderr SolverBackend.gpmc "KILLED\n"
          = RunOutcome.timeoutErr "Execution timeout."
        ↔ rustToLowercase "KILLED\n" = "killed\n")
    ∧ (rustToLowercase "KILLED\n" ≠ "" → rustToLowercase "KILLED\n" ≠ "killed\n" →
        run_model_stderr SolverBackend.gpmc "KILLED\n"
          = RunOutcome.hardErr "Something went wrong.")
    ∧ (("KILLED\n" : String) = "" →
        run_model_stderr SolverBackend.sharpsatTD "KILLED\n" = RunOutcome.ok true
          ∧ run_model_stderr SolverBackend.dmc "KILLED\n" = RunOutcome.ok false) :=
  claim_C9_amended SolverBackend.gpmc "KILLED\n"

/-- Predicate: the node is a basic event. -/
def NodeType.isBasicEvent {R : Type} : NodeType R → Bool
  | .BasicEvent _ _ _ => true
  | _ => false

theorem enumFrom_filterMap_filter_key {β γ : Type} (f : Nat × β → Option (Nat × γ))
    (hkey : ∀ p e, f p = some e → e.1 = p.1 + 1) :
    ∀ (l : List β) (k v : Nat), k < v → v ≤ k + l.length →
      ((List.enumFrom k l).filterMap f).filter (fun e => e.1 = v)
        = ((l[v - 1 - k]?).bind (fun b => f (v - 1, b))).toList := by
  intro l
  induction l with
  | nil =>
    intro k v h1 h2
    simp at h2
    omega
  | cons b bs ih =>
    intro k v h1 h2
    rw [List.enumFrom_cons]
    by_cases hv : v = k + 1
    · subst hv
      have hidx : k + 1 - 1 - k = 0 := by omega
      rw [hidx]
      simp only [List.getElem?_cons_zero, Option.some_bind]
      have htail :
          ((List.enumFrom (k + 1) bs).filterMap f).filter (fun e => e.1 = k + 1) = [] := by
        rw [List.filter_eq_nil_iff]
        intro e he
        obtain ⟨p, hp, hfp⟩ := List.mem_filterMap.mp he
        have hk := hkey p e hfp
        obtain ⟨hge, _, _⟩ := List.mem_enumFrom hp
        simp only [decide_eq_true_eq]
        omega
      cases hf : f (k, b) with
      | none =>
        rw [List.filterMap_cons_none hf, htail]
        have : k + 1 - 1 = k := by omega
        rw [this, hf]
        rfl
      | some e =>
        rw [List.filterMap_cons_some hf, List.filter_cons]
        have hke := hkey _ _ hf
        simp only [hke, decide_eq_true_eq, if_pos rfl]
        rw [htail]
        have : k + 1 - 1 = k := by omega
        rw [this, hf]
        rfl
    · have hlt : k + 1 < v := by omega
      have hstep : ((v - 1 - k) - 1) = v - 1 - (k + 1) := by omega
      have hcons : (b :: bs)[v - 1 - k]? = bs[v - 1 - (k + 1)]? := by
        have hpos : 0 < v - 1 - k := by omega
        cases hidx : v - 1 - k with
        | zero => omega
        | succ m =>
          rw [List.getElem?_cons_succ]
          congr 1
          omega
      rw [hcons]
      cases hf : f (k, b) with
      | none =>
        rw [List.filterMap_cons_none hf]
        exact ih (k + 1) v hlt (by simp at h2 ⊢; omega)
      | some e =>
        rw [List.filterMap_cons_some hf, List.filter_cons]
        have hke := hkey _ _ hf
        simp only [hke, decide_eq_true_eq, if_neg (by omega : ¬ k + 1 = v)]
        exact ih (k + 1) v hlt (by simp at h2 ⊢; omega)

theorem range_filterMap_filter_key {γ : Type} (f : Nat → Option (Nat × γ))
    (hkey : ∀ i e, f i = some e → e.1 = i + 1) :
    ∀ (n v : Nat), 1 ≤ v → v ≤ n →
      (((List.range n).filterMap f).filter (fun e => e.1 = v)) = (f (v - 1)).toList := by
  intro n
  induction n with
  | zero => intro v h1 h2; omega
  | succ n ih =>
    intro v h1 h2
    rw [List.range_succ, List.filterMap_append, List.filter_append]
    by_cases hv : v ≤ n
    · rw [ih v h1 hv]
      have hlast : ((List.filterMap f [n]).filter (fun e => e.1 = v)) = [] := by
        rw [List.filter_eq_nil_iff]
        intro e he
        obtain ⟨a, ha, hfa⟩ := List.mem_filterMap.mp he
        simp only [List.mem_singleton] at ha
        subst ha
        have := hkey _ _ hfa
        simp only [decide_eq_true_eq]
        omega
      rw [hlast, List.append_nil]
    · have hv' : v = n + 1 := by omega
      subst hv'
      have hfirst :
          (((List.range n).filterMap f).filter (fun e => e.1 = n + 1)) = [] := by
        rw [List.filter_eq_nil_iff]
        intro e he
        obtain ⟨a, ha, hfa⟩ := List.mem_filterMap.mp he
        rw [List.mem_range] at ha
        have := hkey _ _ hfa
        simp only [decide_eq_true_eq]
        omega
      rw [hfirst, List.nil_append]
      have hidx : n + 1 - 1 = n := by omega
      rw [hidx]
      cases hf : f n with
      | none => rw [List.filterMap_cons_none hf]; rfl
      | some e =>
        rw [List.filterMap_cons_some hf]
        simp only [List.filterMap_nil, List.filter_cons, List.filter_nil]
        have := hkey _ _ hf
        simp only [this, decide_eq_true_eq, if_pos rfl]
        rfl

/-- The per-node weight entry of the basic-event weight loop, as a partial
function of the (index, node) pair: the some results of one iteration of
beWeightsLoop. -/
def beEntry {R : Type} [CommRing R] (expf : R → R) (t : R) :
    Nat × NodeType R → Option (Nat × R × R) :=
  fun p =>
    match p.2 with
    | NodeType.BasicEvent _ method value =>
      if rustToLowercase method = "prob" then some (p.1 + 1, value, 1 - value)
      else if rustToLowercase method = "lambda" then
        some (p.1 + 1, 1 - expf (-value * t), 1 - (1 - expf (-value * t)))
      else none
    | _ => none

theorem beWeightsLoop_spec {R : Type} [CommRing R] (expf : R → R) (t : R) :
    ∀ (pairs : List (Nat × NodeType R)) (bw : List (Nat × R × R)),
      beWeightsLoop expf t pairs = some bw →
        bw = pairs.filterMap (beEntry expf t) := by
  intro pairs
  induction pairs with
  | nil =>
    intro bw h
    simp only [beWeightsLoop, Option.some.injEq] at h
    simp [← h]
  | cons p rest ih =>
    intro bw h
    obtain ⟨i, node⟩ := p
    cases node with
    | BasicEvent nm m val =>
      by_cases h1 : rustToLowercase m = "prob"
      · simp only [beWeightsLoop, h1, if_pos] at h
        obtain ⟨l, hl, hbw⟩ := Option.map_eq_some'.mp h
        rw [List.filterMap_cons_some (show beEntry expf t (i, NodeType.BasicEvent nm m val)
            = some (i + 1, val, 1 - val) by simp [beEntry, h1])]
        rw [← hbw, ih l hl]
      · by_cases h2 : rustToLowercase m = "lambda"
        · simp only [beWeightsLoop, h1, h2, if_pos, if_neg, if_false] at h
          obtain ⟨l, hl, hbw⟩ := Option.map_eq_some'.mp h
          rw [List.filterMap_cons_some (show beEntry expf t (i, NodeType.BasicEvent nm m val)
              = some (i + 1, 1 - expf (-val * t), 1 - (1 - expf (-val * t))) by
                simp [beEntry, h1, h2])]
          rw [← hbw, ih l hl]
        · simp only [beWeightsLoop, h1, h2, if_neg, if_false] at h
          exact absurd h (by simp)
    | Not a =>
      rw [List.filterMap_cons_none (show beEntry expf t (i, NodeType.Not a) = none from rfl)]
      exact ih bw h
    | And args =>
      rw [List.filterMap_cons_none (show beEntry expf t (i, NodeType.And args) = none from rfl)]
      exact ih bw h
    | Or args =>
      rw [List.filterMap_cons_none (show beEntry expf t (i, NodeType.Or args) = none from rfl)]
      exact ih bw h
    | Xor args =>
      rw [List.filterMap_cons_none (show beEntry expf t (i, NodeType.Xor args) = none from rfl)]
      exact ih bw h
    | Vot k args =>
      rw [List.filterMap_cons_none (show beEntry expf t (i, NodeType.Vot k args) = none from rfl)]
      exact ih bw h
    | PlaceHolder nm op args =>
      rw [List.filterMap_cons_none
        (show beEntry expf t (i, NodeType.PlaceHolder nm op args) = none from rfl)]
      exact ih bw h

theorem mem_used_ids_iff {R : Type} (nodes : List (NodeType R)) (i : Nat) :
    (i ∈ nodes.enum.filterMap
        (fun p => match p.2 with
          | NodeType.BasicEvent _ _ _ => some p.1
          | _ => none))
      ↔ ∃ nm m val, nodes[i]? = some (NodeType.BasicEvent nm m val) := by
  rw [List.mem_filterMap]
  constructor
  · rintro ⟨⟨j, node⟩, hp, hmatch⟩
    cases node with
    | BasicEvent nm m val =>
      simp only [Option.some.injEq] at hmatch
      subst hmatch
      exact ⟨nm, m, val, List.mem_enum_iff_getElem?.mp hp⟩
    | Not a => simp at hmatch
    | And args => simp at hmatch
    | Or args => simp at hmatch
    | Xor args => simp at hmatch
    | Vot k args => simp at hmatch
    | PlaceHolder nm op args => simp at hmatch
  · rintro ⟨nm, m, val, hget⟩
    exact ⟨(i, NodeType.BasicEvent nm m val), List.mem_enum_iff_getElem?.mpr hget, rfl⟩

/-- Claim C7: for every CNF variable v in 1..N (N the node count), the
weight emitter produces exactly one weight pair for v.  If v corresponds
to a basic-event node, the positive-literal weight is the stored
probability for a discrete (prob) event or one minus the exponential decay
for a continuous (lambda) event, and the negative-literal weight is one
minus that value; otherwise both polarities get weight 1.  No repair mode
exists in the node model consumed by the emitter, so the unavailability of
an event always coincides with its unreliability here. -/
theorem claim_C7 {R : Type} [CommRing R] (expf : R → R) (nodes : List (NodeType R))
    (t : R) (gw bw : List (Nat × R × R)) (v : Nat)
    (hw : get_weights expf nodes nodes.length t = some (gw, bw))
    (hv1 : 1 ≤ v) (hv2 : v ≤ nodes.length) :
    (∀ name method value,
        nodes[v - 1]? = some (NodeType.BasicEvent name method value) →
          (rustToLowercase method = "prob" →
            (gw ++ bw).filter (fun e => e.1 = v) = [(v, value, 1 - value)])
          ∧ (rustToLowercase method = "lambda" →
            (gw ++ bw).filter (fun e => e.1 = v)
              = [(v, 1 - expf (-value * t), 1 - (1 - expf (-value * t)))]))
    ∧ (∀ node, nodes[v - 1]? = some node → node.isBasicEvent = false →
        (gw ++ bw).filter (fun e => e.1 = v) = [(v, 1, 1)]) := by
  simp only [get_weights] at hw
  obtain ⟨bw0, hloop, hpair⟩ := Option.map_eq_some'.mp hw
  obtain ⟨hgw, hbw⟩ : gw = (List.range nodes.length).filterMap
      (fun i => if (nodes.enum.filterMap
          (fun p => match p.2 with
            | NodeType.BasicEvent _ _ _ => some p.1
            | _ => none)).contains i
        then none else some (i + 1, (1 : R), (1 : R))) ∧ bw = bw0 := by
    have h1 := congrArg Prod.fst hpair
    have h2 := congrArg Prod.snd hpair
    simp at h1 h2
    exact ⟨h1.symm, h2.symm⟩
  have hbwspec : bw = nodes.enum.filterMap (beEntry expf t) := by
    rw [hbw]
    exact beWeightsLoop_spec expf t nodes.enum bw0 hloop
  have hkeyg : ∀ (i : Nat) (e : Nat × R × R),
      (if (nodes.enum.filterMap
          (fun p => match p.2 with
            | NodeType.BasicEvent _ _ _ => some p.1
            | _ => none)).contains i
        then none else some (i + 1, (1 : R), (1 : R))) = some e → e.1 = i + 1 := by
    intro i e he
    by_cases hc : (nodes.enum.filterMap
        (fun p => match p.2 with
          | NodeType.BasicEvent _ _ _ => some p.1
          | _ => none)).contains i
    · rw [if_pos hc] at he; exact absurd he (by simp)
    · rw [if_neg hc] at he
      simp only [Option.some.injEq] at he
      rw [← he]
  have hkeyb : ∀ (p : Nat × NodeType R) (e : Nat × R × R),
      beEntry expf t p = some e → e.1 = p.1 + 1 := by
    rintro ⟨i, node⟩ e he
    cases node with
    | BasicEvent nm m val =>
      simp only [beEntry] at he
      by_cases h1 : rustToLowercase m = "prob"
      · rw [if_pos h1] at he
        simp only [Option.some.injEq] at he
        rw [← he]
      · rw [if_neg h1] at he
        by_cases h2 : rustToLowercase m = "lambda"
        · rw [if_pos h2] at he
          simp only [Option.some.injEq] at he
          rw [← he]
        · rw [if_neg h2] at he; exact absurd he (by simp)
    | Not a => exact absurd he (by simp [beEntry])
    | And args => exact absurd he (by simp [beEntry])
    | Or args => exact absurd he (by simp [beEntry])
    | Xor args => exact absurd he (by simp [beEntry])
    | Vot k args => exact absurd he (by simp [beEntry])
    | PlaceHolder nm op args => exact absurd he (by simp [beEntry])
  have hgwfilter := range_filterMap_filter_key _ hkeyg nodes.length v hv1 hv2
  have hbwfilter : bw.filter (fun e => e.1 = v)
      = ((nodes[v - 1]?).bind (fun b => beEntry expf t (v - 1, b))).toList := by
    rw [hbwspec]
    have := enumFrom_filterMap_filter_key (beEntry expf t) hkeyb nodes 0 v
      (by omega) (by omega)
    have hzero : v - 1 - 0 = v - 1 := by omega
    rw [hzero] at this
    exact this
  rw [List.filter_append, hgw, hgwfilter, hbwfilter]
  have hvm1 : v - 1 + 1 = v := by omega
  constructor
  · intro name method value hget
    have hused : (nodes.enum.filterMap
        (fun p => match p.2 with
          | NodeType.BasicEvent _ _ _ => some p.1
          | _ => none)).contains (v - 1) = true := by
      rw [List.elem_iff]
      exact (mem_used_ids_iff nodes (v - 1)).mpr ⟨name, method, value, hget⟩
    rw [if_pos hused, hget]
    constructor
    · intro hm
      simp only [Option.some_bind, beEntry, hm, if_pos, Option.toList_some, hvm1]
      rfl
    · intro hm
      by_cases hm' : rustToLowercase method = "prob"
      · rw [hm'] at hm; exact absurd hm (by decide)
      · simp only [Option.some_bind, beEntry, hm, hm', if_neg, if_pos, if_false,
          Option.toList_some, hvm1]
        rfl
  · intro node hget hnotbe
    have hnused : ¬ (nodes.enum.filterMap
        (fun p => match p.2 with
          | NodeType.BasicEvent _ _ _ => some p.1
          | _ => none)).contains (v - 1) = true := by
      rw [List.elem_iff]
      intro hmem
      obtain ⟨nm, m, val, hget'⟩ := (mem_used_ids_iff nodes (v - 1)).mp hmem
      rw [hget] at hget'
      simp only [Option.some.injEq] at hget'
      rw [hget'] at hnotbe
      simp [NodeType.isBasicEvent] at hnotbe
    rw [if_neg hnused, hget]
    have hbe : beEntry expf t (v - 1, node) = none := by
      cases node with
      | BasicEvent nm m val => simp [NodeType.isBasicEvent] at hnotbe
      | Not a => rfl
      | And args => rfl
      | Or args => rfl
      | Xor args => rfl
      | Vot k args => rfl
      | PlaceHolder nm op args => rfl
    simp only [Option.some_bind, hbe, Option.toList_none, List.append_nil,
      Option.toList_some, hvm1]

theorem claim_C7_witness :
    get_weights (R := ℤ) id
        [NodeType.BasicEvent "a" "prob" 7, NodeType.Or [0]]
        ([NodeType.BasicEvent "a" "prob" (7 : ℤ), NodeType.Or [0]].length) 1
      = some ([(2, 1, 1)], [(1, 7, 1 - 7)])
    ∧ 1 ≤ 1
    ∧ 1 ≤ [NodeType.BasicEvent "a" "prob" (7 : ℤ), NodeType.Or [0]].length
    ∧ ((∀ name method value,
          [NodeType.BasicEvent "a" "prob" ((7 : ℤ)), NodeType.Or [0]][1 - 1]?
              = some (NodeType.BasicEvent name method value) →
            (rustToLowercase method = "prob" →
              (([(2, 1, 1)] ++ [(1, 7, 1 - 7)]) :
                  List (Nat × ℤ × ℤ)).filter (fun e => e.1 = 1)
                = [(1, value, 1 - value)])
            ∧ (rustToLowercase method = "lambda" →
              (([(2, 1, 1)] ++ [(1, 7, 1 - 7)]) :
                  List (Nat × ℤ × ℤ)).filter (fun e => e.1 = 1)
                = [(1, 1 - id (-value * 1), 1 - (1 - id (-value * 1)))]))
        ∧ (∀ node,
            [NodeType.BasicEvent "a" "prob" ((7 : ℤ)), NodeType.Or [0]][1 - 1]?
                = some node →
              node.isBasicEvent = false →
                (([(2, 1, 1)] ++ [(1, 7, 1 - 7)]) :
                    List (Nat × ℤ × ℤ)).filter (fun e => e.1 = 1)
                  = [(1, 1, 1)])) :=
  ⟨by decide, Nat.le_refl 1, by decide,
    claim_C7 id [NodeType.BasicEvent "a" "prob" ((7 : ℤ)), NodeType.Or [0]] 1
      [(2, 1, 1)] [(1, 7, 1 - 7)] 1 (by decide) (Nat.le_refl 1) (by decide)⟩

/-- One parsed, tokenized line of a GALILEO file, as dispatched by the
match in read_file of src/fault_tree_normalizer.rs: a toplevel
declaration, a gate declaration (name, operator, argument names), a
basic-event declaration (name and its first key-value pair), or a comment
or blank line (which the source skips).  Quote and semicolon stripping and
whitespace tokenization happen before this representation. -/
inductive Decl (R : Type) where
  | toplevel (name : String)
  | gate (name : String) (op : GateOp) (args : List String)
  | be (name : String) (method : String) (value : R)
  | comment
  deriving Repr

/-- The mutable fields of the FaultTreeNormalizer of
src/fault_tree_normalizer.rs: the name lookup table (a hash map, modelled
as an association list where the most recent insertion is found first),
the node container and the atomic node counter. -/
structure NormState (R : Type) where
  lookup_table : List (String × Nat)
  nodes : List (NodeType R)
  node_counter : Nat
  deriving Repr

/-- The result of read_from_file: the filled normalizer with its resolved
root id. -/
structure FaultTreeNormalizer (R : Type) where
  lookup_table : List (String × Nat)
  nodes : List (NodeType R)
  root_id : Nat
  deriving Repr, DecidableEq

/-- Hash-map lookup on the association-list model: the most recently
inserted binding for the key wins. -/
def lookupStr {β : Type} (table : List (String × β)) (key : String) : Option β :=
  (table.find? (fun kv => kv.1 == key)).map (fun kv => kv.2)

/-- The empty normalizer state of FaultTreeNormalizer new. -/
def NormState.empty {R : Type} : NormState R :=
  { lookup_table := [], nodes := [], node_counter := 0 }

/-- new_id followed by add_node of src/fault_tree_normalizer.rs: take the
next id from the counter, record the name, and insert the node at that id.
The fresh id always equals the container length, so the insertion is an
append. -/
def addNode {R : Type} (st : NormState R) (name : String) (node : NodeType R) :
    NormState R :=
  { lookup_table := (name, st.node_counter) :: st.lookup_table,
    nodes := st.nodes ++ [node],
    node_counter := st.node_counter + 1 }

/-- The line loop of read_file of src/fault_tree_normalizer.rs.  It
threads the root name (initially the literal System), the single-child
replace mapper and the normalizer state.  A duplicate gate or basic-event
name and an unsupported dynamic gate keyword are fatal (none).  With
simplify on, an and, or, xor or k-of-n gate with exactly one argument is
not materialized: the mapper records name to argument, and if the gate is
the current root, the root name is renamed one step. -/
def readFileLoop {R : Type} (simplify : Bool) :
    List (Decl R) → String → List (String × String) → NormState R →
    Option (String × List (String × String) × NormState R)
  | [], root_name, mapper, st => some (root_name, mapper, st)
  | d :: rest, root_name, mapper, st =>
    match d with
    | Decl.comment => readFileLoop simplify rest root_name mapper st
    | Decl.toplevel name => readFileLoop simplify rest name mapper st
    | Decl.gate name GateOp.not args =>
      if (lookupStr st.lookup_table name).isSome then none
      else
        readFileLoop simplify rest root_name mapper
          (addNode st name (NodeType.PlaceHolder name GateOp.not args))
    | Decl.gate _ (GateOp.unsupported _) _ => none
    | Decl.gate name op args =>
      if (lookupStr st.lookup_table name).isSome then none
      else
        if simplify && args.length == 1 then
          let arg := args.headD ""
          readFileLoop simplify rest
            (if root_name == name then arg else root_name)
            ((name, arg) :: mapper) st
        else
          readFileLoop simplify rest root_name mapper
            (addNode st name (NodeType.PlaceHolder name op args))
    | Decl.be name method value =>
      if (lookupStr st.lookup_table name).isSome then none
      else
        readFileLoop simplify rest root_name mapper
          (addNode st name (NodeType.BasicEvent name method value))

/-- The while loop of preprocess_placeholders that follows a rewrite chain
through the mapper until the value is no longer a key.  The source loops
without a bound (and would hang on a cyclic mapper); on the acyclic
mappers read_file produces, a fuel of the mapper length suffices and the
fuel is never exhausted. -/
def chase (mapper : List (String × String)) : Nat → String → String
  | 0, v => v
  | fuel + 1, v =>
    match lookupStr mapper v with
    | none => v
    | some v' => chase mapper fuel v'

/-- The corrected mapper of preprocess_placeholders of
src/fault_tree_normalizer.rs: keep the pairs whose value is not itself a
key, then add, for every remaining key, the end of its rewrite chain. -/
def correctedMapper (mapper : List (String × String)) : List (String × String) :=
  let filtered := mapper.filter (fun kv => (lookupStr mapper kv.2).isNone)
  filtered ++
    (mapper.filter (fun kv => (lookupStr filtered kv.1).isNone)).map
      (fun kv => (kv.1, chase mapper mapper.length kv.2))

/-- preprocess_placeholders of src/fault_tree_normalizer.rs: replace, in
the argument list of every placeholder, each name bound in the corrected
mapper by its image; other nodes are untouched. -/
def preprocess_placeholders {R : Type} (mapper : List (String × String))
    (st : NormState R) : NormState R :=
  let corrected := correctedMapper mapper
  { st with
    nodes := st.nodes.map
      (fun n =>
        match n with
        | NodeType.PlaceHolder name op args =>
          NodeType.PlaceHolder name op
            (args.map (fun a =>
              match lookupStr corrected a with
              | some b => b
              | none => a))
        | other => other) }

/-- read_file of src/fault_tree_normalizer.rs on the parsed declaration
list: run the line loop from the empty state and, with simplify on, apply
the placeholder preprocessing; return the final root name and state. -/
def read_file {R : Type} (decls : List (Decl R)) (simplify : Bool) :
    Option (String × NormState R) :=
  match readFileLoop simplify decls "System" [] NormState.empty with
  | none => none
  | some (root_name, mapper, st) =>
    some (root_name, if simplify then preprocess_placeholders mapper st else st)

/-- Argument-name resolution of fill_placeholders: look every argument
name up in the lookup table; an unresolved name is fatal (none). -/
def resolveArgs (table : List (String × Nat)) : List String → Option (List Nat)
  | [] => some []
  | a :: rest =>
    match lookupStr table a with
    | none => none
    | some id => (resolveArgs table rest).map (fun ids => id :: ids)

/-- The auxiliary-gate emission loop of the k-of-n expansion in
fill_placeholders: for each auxiliary clause (a list of argument names),
resolve the names, take a fresh id, and append an OR gate over the
resolved ids under the name aux_gate_ followed by the id; return the new
state and the list of auxiliary ids in emission order. -/
def expandLoop {R : Type} :
    NormState R → List (List String) → Option (NormState R × List Nat)
  | st, [] => some (st, [])
  | st, clause :: rest =>
    match resolveArgs st.lookup_table clause with
    | none => none
    | some ids =>
      let gid := st.node_counter
      let st' := addNode st ("aux_gate_" ++ toString gid) (NodeType.Or ids)
      match expandLoop st' rest with
      | none => none
      | some (st'', gids) => some (st'', gid :: gids)

/-- update_roots of src/fault_tree_normalizer.rs: replace the node stored
at the given id. -/
def updateRoots {R : Type} (st : NormState R) (node : NodeType R) (nid : Nat) :
    NormState R :=
  { st with nodes := st.nodes.set nid node }

/-- The body of the placeholder loop of fill_placeholders of
src/fault_tree_normalizer.rs for one placeholder id: resolve the argument
names and build the concrete gate.  An or, xor or and placeholder becomes
the same-shaped gate; a not placeholder asserts exactly one argument; a
k-of-n placeholder validates the arity and bounds, degenerates to And for
k equal to n and to Or for k equal to 1, and otherwise either keeps a Vot
gate (keep_vot) or expands into an AND of freshly created auxiliary OR
gates whose children lists are the votClauses of the argument names with
clause size n minus k.  The unsupported keyword case is the closing panic
of the dispatch. -/
def fillOne {R : Type} (keep_vot : Bool) (st : NormState R) (nid : Nat)
    (op : GateOp) (args : List String) : Option (NormState R) :=
  match resolveArgs st.lookup_table args with
  | none => none
  | some args_ids =>
    match op with
    | GateOp.or => some (updateRoots st (NodeType.Or args_ids) nid)
    | GateOp.xor => some (updateRoots st (NodeType.Xor args_ids) nid)
    | GateOp.and => some (updateRoots st (NodeType.And args_ids) nid)
    | GateOp.not =>
      match args_ids with
      | [a] => some (updateRoots st (NodeType.Not a) nid)
      | _ => none
    | GateOp.ofK k n =>
      if args.length ≠ n ∨ k < 1 ∨ k > n then none
      else if n == k then some (updateRoots st (NodeType.And args_ids) nid)
      else if k == 1 then some (updateRoots st (NodeType.Or args_ids) nid)
      else
        if keep_vot then
          some (updateRoots st (NodeType.Vot (Int.ofNat k) args_ids) nid)
        else
          let clause_size := n - k
          match expandLoop st (votClauses clause_size args) with
          | none => none
          | some (st', aux_ids) =>
            some (updateRoots st' (NodeType.And aux_ids) nid)
    | GateOp.unsupported _ => none

/-- The placeholder loop of fill_placeholders: process the placeholder ids
collected before the loop, in order.  Finding anything but a placeholder
at a listed id is the should-not-happen panic of the source. -/
def fillLoop {R : Type} (keep_vot : Bool) :
    NormState R → List Nat → Option (NormState R)
  | st, [] => some st
  | st, nid :: rest =>
    match st.nodes[nid]? with
    | some (NodeType.PlaceHolder _ op args) =>
      match fillOne keep_vot st nid op args with
      | none => none
      | some st' => fillLoop keep_vot st' rest
    | _ => none

/-- The placeholder id collection of fill_placeholders: the indices whose
node is a PlaceHolder. -/
def placeholderIds {R : Type} (st : NormState R) : List Nat :=
  (List.range st.nodes.length).filter
    (fun i =>
      match st.nodes[i]? with
      | some (NodeType.PlaceHolder _ _ _) => true
      | _ => false)

/-- fill_placeholders of src/fault_tree_normalizer.rs (the set_formula
flag only affects the unmodelled display formula). -/
def fill_placeholders {R : Type} (keep_vot : Bool) (st : NormState R) :
    Option (NormState R) :=
  fillLoop keep_vot st (placeholderIds st)

/-- read_from_file of src/fault_tree_normalizer.rs: read the declarations,
fill every placeholder (keep_vot disabled), and resolve the root name; an
unresolved root name is the final unwrap panic. -/
def read_from_file {R : Type} (decls : List (Decl R)) (simplify : Bool) :
    Option (FaultTreeNormalizer R) :=
  match read_file decls simplify with
  | none => none
  | some (root_name, st) =>
    match fill_placeholders false st with
    | none => none
    | some st' =>
      match lookupStr st'.lookup_table root_name with
      | none => none
      | some root_id =>
        some { lookup_table := st'.lookup_table, nodes := st'.nodes, root_id := root_id }

/-- Claim C5, failing input: the four-line GALILEO file
  toplevel g1 / a or b / g1 or a / b prob=1.
With the simplify flag, read_file records the rewrites a to b and g1 to a
and renames the root only one step, from g1 to a; the placeholder
preprocessing then transitively closes the argument mapper but never the
root name, so the final root lookup of the dropped gate name a fails (the
unwrap in read_from_file panics) and no tree is produced.  Without
simplify, normalization of the same input succeeds.  So simplification is
not probability-preserving on this input: one side has no defined top
event probability at all. -/
theorem claim_C5_bug :
    read_from_file (R := ℤ)
        [Decl.toplevel "g1", Decl.gate "a" GateOp.or ["b"],
         Decl.gate "g1" GateOp.or ["a"], Decl.be "b" "prob" 1] true
      = none
    ∧ read_from_file (R := ℤ)
        [Decl.toplevel "g1", Decl.gate "a" GateOp.or ["b"],
         Decl.gate "g1" GateOp.or ["a"], Decl.be "b" "prob" 1] false
      = some
          { lookup_table := [("b", 2), ("g1", 1), ("a", 0)],
            nodes := [NodeType.Or [2], NodeType.Or [0],
              NodeType.BasicEvent "b" "prob" 1],
            root_id := 1 } :=
  ⟨by decide, by decide⟩

/-- The construction invariant of the normalizer state: the counter equals
the container length (ids are dense), every name in the lookup table maps
to an existing index, and every child id of every stored node exists in
the container. -/
def WellFormedState {R : Type} (st : NormState R) : Prop :=
  st.node_counter = st.nodes.length
  ∧ (∀ p ∈ st.lookup_table, p.2 < st.nodes.length)
  ∧ (∀ node ∈ st.nodes, ∀ cs, node.children = some cs → ∀ c ∈ cs, c < st.nodes.length)

theorem wf_empty {R : Type} : WellFormedState (NormState.empty (R := R)) := by
  refine ⟨rfl, ?_, ?_⟩
  · intro p hp; simp [NormState.empty] at hp
  · intro node hn; simp [NormState.empty] at hn

theorem lookupStr_mem {β : Type} (table : List (String × β)) (key : String) (v : β)
    (h : lookupStr table key = some v) : ∃ p ∈ table, p.2 = v := by
  simp only [lookupStr, Option.map_eq_some'] at h
  obtain ⟨kv, hfind, hv⟩ := h
  exact ⟨kv, List.mem_of_find?_eq_some hfind, hv⟩

theorem resolveArgs_bound {N : Nat} (table : List (String × Nat))
    (hb : ∀ p ∈ table, p.2 < N) :
    ∀ (args : List String) (ids : List Nat),
      resolveArgs table args = some ids → ∀ c ∈ ids, c < N := by
  intro args
  induction args with
  | nil =>
    intro ids h c hc
    simp only [resolveArgs, Option.some.injEq] at h
    rw [← h] at hc
    simp at hc
  | cons a rest ih =>
    intro ids h c hc
    simp only [resolveArgs] at h
    cases hl : lookupStr table a with
    | none => rw [hl] at h; exact absurd h (by simp)
    | some id =>
      rw [hl] at h
      obtain ⟨ids', hids', heq⟩ := Option.map_eq_some'.mp h
      rw [← heq] at hc
      rcases List.mem_cons.mp hc with rfl | hc
      · obtain ⟨p, hp, hpv⟩ := lookupStr_mem table a c hl
        rw [← hpv]
        exact hb p hp
      · exact ih ids' hids' c hc

theorem wf_addNode {R : Type} (st : NormState R) (name : String) (node : NodeType R)
    (hwf : WellFormedState st)
    (hchild : ∀ cs, node.children = some cs → ∀ c ∈ cs, c < st.nodes.length + 1) :
    WellFormedState (addNode st name node) := by
  obtain ⟨hc, hl, hn⟩ := hwf
  refine ⟨?_, ?_, ?_⟩
  · simp [addNode, hc]
  · intro p hp
    simp only [addNode, List.mem_cons] at hp
    rcases hp with rfl | hp
    · simp [addNode, hc]
    · simp only [addNode, List.length_append, List.length_singleton]
      exact Nat.lt_succ_of_lt (hl p hp)
  · intro nd hnd cs hcs c hcc
    simp only [addNode, List.mem_append, List.mem_singleton] at hnd
    simp only [addNode, List.length_append, List.length_singleton]
    rcases hnd with hnd | rfl
    · exact Nat.lt_succ_of_lt (hn nd hnd cs hcs c hcc)
    · exact hchild cs hcs c hcc

theorem expandLoop_spec {R : Type} :
    ∀ (clauses : List (List String)) (st st' : NormState R) (gids : List Nat),
      WellFormedState st → expandLoop st clauses = some (st', gids) →
        WellFormedState st'
        ∧ (∃ ext, st'.nodes = st.nodes ++ ext
            ∧ ∀ nd ∈ ext, nd.isPlaceHolder = false)
        ∧ (∀ g ∈ gids, g < st'.nodes.length)
        ∧ st.lookup_table.length ≤ st'.lookup_table.length ∧
          st'.nodes.length = st.nodes.length + clauses.length := by
  intro clauses
  induction clauses with
  | nil =>
    intro st st' gids hwf h
    simp only [expandLoop, Option.some.injEq, Prod.mk.injEq] at h
    obtain ⟨rfl, rfl⟩ := h
    exact ⟨hwf, ⟨[], by simp, by simp⟩, by simp, Nat.le_refl _, by simp⟩
  | cons clause rest ih =>
    intro st st' gids hwf h
    simp only [expandLoop] at h
    cases hres : resolveArgs st.lookup_table clause with
    | none =>
      simp only [hres] at h
      exact absurd h (by simp)
    | some ids =>
      simp only [hres] at h
      cases hrec : expandLoop (addNode st ("aux_gate_" ++ toString st.node_counter)
          (NodeType.Or ids)) rest with
      | none =>
        simp only [hrec] at h
        exact absurd h (by simp)
      | some p =>
        obtain ⟨st'', gids'⟩ := p
        simp only [hrec, Option.some.injEq, Prod.mk.injEq] at h
        obtain ⟨rfl, rfl⟩ := h
        have hids : ∀ c ∈ ids, c < st.nodes.length :=
          resolveArgs_bound st.lookup_table hwf.2.1 clause ids hres
        have hwf1 : WellFormedState (addNode st ("aux_gate_" ++ toString st.node_counter)
            (NodeType.Or ids)) := by
          apply wf_addNode st _ _ hwf
          intro cs hcs c hcc
          simp only [NodeType.children, Option.some.injEq] at hcs
          rw [← hcs] at hcc
          exact Nat.lt_succ_of_lt (hids c hcc)
        obtain ⟨hwf'', ⟨ext, hext, hextnp⟩, hgids, hlk, hlen⟩ :=
          ih _ st'' gids' hwf1 hrec
        refine ⟨hwf'', ⟨NodeType.Or ids :: ext, ?_, ?_⟩, ?_, ?_, ?_⟩
        · rw [hext]; simp [addNode]
        · intro nd hnd
          rcases List.mem_cons.mp hnd with rfl | hnd
          · rfl
          · exact hextnp nd hnd
        · intro g hg
          rcases List.mem_cons.mp hg with rfl | hg
          · have h1 : st.node_counter = st.nodes.length := hwf.1
            have h2 : (addNode st ("aux_gate_" ++ toString st.node_counter)
                (NodeType.Or ids)).nodes.length = st.nodes.length + 1 := by
              simp [addNode]
            rw [h2] at hlen
            exact Nat.lt_of_lt_of_le (by omega : st.node_counter < st.nodes.length + 1 + rest.length) (Nat.le_of_eq hlen.symm)
          · exact hgids g hg
        · have hlk2 : (addNode st ("aux_gate_" ++ toString st.node_counter)
              (NodeType.Or ids)).lookup_table.length = st.lookup_table.length + 1 := by
            simp [addNode]
          rw [hlk2] at hlk
          omega
        · rw [hlen]; simp [addNode]; omega

theorem wf_updateRoots {R : Type} (st : NormState R) (node : NodeType R) (nid : Nat)
    (hwf : WellFormedState st)
    (hchild : ∀ cs, node.children = some cs → ∀ c ∈ cs, c < st.nodes.length) :
    WellFormedState (updateRoots st node nid) := by
  obtain ⟨hc, hl, hn⟩ := hwf
  refine ⟨?_, ?_, ?_⟩
  · simp [updateRoots, hc]
  · intro p hp
    simp only [updateRoots, List.length_set]
    exact hl p hp
  · intro nd hnd cs hcs c hcc
    simp only [updateRoots, List.length_set]
    rcases List.mem_or_eq_of_mem_set hnd with hnd | rfl
    · exact hn nd hnd cs hcs c hcc
    · exact hchild cs hcs c hcc

theorem wf_readFileLoop {R : Type} (simplify : Bool) :
    ∀ (decls : List (Decl R)) (root_name : String) (mapper : List (String × String))
      (st : NormState R) (root' : String) (mapper' : List (String × String))
      (st' : NormState R),
      WellFormedState st →
      readFileLoop simplify decls root_name mapper st = some (root', mapper', st') →
      WellFormedState st' := by
  intro decls
  induction decls with
  | nil =>
    intro root_name mapper st root' mapper' st' hwf h
    simp only [readFileLoop, Option.some.injEq, Prod.mk.injEq] at h
    obtain ⟨_, _, rfl⟩ := h
    exact hwf
  | cons d rest ih =>
    intro root_name mapper st root' mapper' st' hwf h
    cases d with
    | comment => exact ih _ _ _ _ _ _ hwf h
    | toplevel name => exact ih _ _ _ _ _ _ hwf h
    | be name method value =>
      simp only [readFileLoop] at h
      by_cases hdup : (lookupStr st.lookup_table name).isSome
      · simp [hdup] at h
      · simp only [hdup, if_false, Bool.false_eq_true] at h
        refine ih _ _ _ _ _ _ ?_ h
        apply wf_addNode st _ _ hwf
        intro cs hcs c hcc
        simp only [NodeType.children, Option.some.injEq] at hcs
        rw [← hcs] at hcc
        simp at hcc
    | gate name op args =>
      cases op with
      | not =>
        simp only [readFileLoop] at h
        by_cases hdup : (lookupStr st.lookup_table name).isSome
        · simp [hdup] at h
        · simp only [hdup, if_false, Bool.false_eq_true] at h
          refine ih _ _ _ _ _ _ ?_ h
          apply wf_addNode st _ _ hwf
          intro cs hcs
          simp [NodeType.children] at hcs
      | unsupported s => simp [readFileLoop] at h
      | and =>
        simp only [readFileLoop] at h
        by_cases hdup : (lookupStr st.lookup_table name).isSome
        · simp [hdup] at h
        · simp only [hdup, if_false, Bool.false_eq_true] at h
          by_cases hsimp : simplify && args.length == 1
          · rw [if_pos hsimp] at h
            exact ih _ _ _ _ _ _ hwf h
          · rw [if_neg hsimp] at h
            refine ih _ _ _ _ _ _ ?_ h
            apply wf_addNode st _ _ hwf
            intro cs hcs
            simp [NodeType.children] at hcs
      | or =>
        simp only [readFileLoop] at h
        by_cases hdup : (lookupStr st.lookup_table name).isSome
        · simp [hdup] at h
        · simp only [hdup, if_false, Bool.false_eq_true] at h
          by_cases hsimp : simplify && args.length == 1
          · rw [if_pos hsimp] at h
            exact ih _ _ _ _ _ _ hwf h
          · rw [if_neg hsimp] at h
            refine ih _ _ _ _ _ _ ?_ h
            apply wf_addNode st _ _ hwf
            intro cs hcs
            simp [NodeType.children] at hcs
      | xor =>
        simp only [readFileLoop] at h
        by_cases hdup : (lookupStr st.lookup_table name).isSome
        · simp [hdup] at h
        · simp only [hdup, if_false, Bool.false_eq_true] at h
          by_cases hsimp : simplify && args.length == 1
          · rw [if_pos hsimp] at h
            exact ih _ _ _ _ _ _ hwf h
          · rw [if_neg hsimp] at h
            refine ih _ _ _ _ _ _ ?_ h
            apply wf_addNode st _ _ hwf
            intro cs hcs
            simp [NodeType.children] at hcs
      | ofK k n =>
        simp only [readFileLoop] at h
        by_cases hdup : (lookupStr st.lookup_table name).isSome
        · simp [hdup] at h
        · simp only [hdup, if_false, Bool.false_eq_true] at h
          by_cases hsimp : simplify && args.length == 1
          · rw [if_pos hsimp] at h
            exact ih _ _ _ _ _ _ hwf h
          · rw [if_neg hsimp] at h
            refine ih _ _ _ _ _ _ ?_ h
            apply wf_addNode st _ _ hwf
            intro cs hcs
            simp [NodeType.children] at hcs

theorem wf_preprocess {R : Type} (mapper : List (String × String)) (st : NormState R)
    (hwf : WellFormedState st) :
    WellFormedState (preprocess_placeholders mapper st) := by
  obtain ⟨hc, hl, hn⟩ := hwf
  refine ⟨?_, ?_, ?_⟩
  · simpa [preprocess_placeholders] using hc
  · intro p hp
    simpa [preprocess_placeholders] using hl p hp
  · intro node hnd cs hcs c hcc
    simp only [preprocess_placeholders, List.length_map]
    simp only [preprocess_placeholders, List.mem_map] at hnd
    obtain ⟨node0, hmem0, hnode⟩ := hnd
    cases node0 with
    | PlaceHolder nm op args =>
      rw [← hnode] at hcs
      simp [NodeType.children] at hcs
    | BasicEvent nm m v =>
      rw [← hnode] at hcs
      exact hn _ hmem0 cs hcs c hcc
    | Not a =>
      rw [← hnode] at hcs
      exact hn _ hmem0 cs hcs c hcc
    | And args =>
      rw [← hnode] at hcs
      exact hn _ hmem0 cs hcs c hcc
    | Or args =>
      rw [← hnode] at hcs
      exact hn _ hmem0 cs hcs c hcc
    | Xor args =>
      rw [← hnode] at hcs
      exact hn _ hmem0 cs hcs c hcc
    | Vot k args =>
      rw [← hnode] at hcs
      exact hn _ hmem0 cs hcs c hcc

theorem fillOne_spec {R : Type} (keep : Bool) (st st' : NormState R) (nid : Nat)
    (op : GateOp) (args : List String)
    (hnid : nid < st.nodes.length)
    (hwf : WellFormedState st)
    (h : fillOne keep st nid op args = some st') :
    WellFormedState st'
    ∧ st.nodes.length ≤ st'.nodes.length
    ∧ (∀ i, i ≠ nid → i < st.nodes.length → st'.nodes[i]? = st.nodes[i]?)
    ∧ (∀ node, st'.nodes[nid]? = some node → node.isPlaceHolder = false)
    ∧ (∀ i, st.nodes.length ≤ i → ∀ node, st'.nodes[i]? = some node →
        node.isPlaceHolder = false) := by
  simp only [fillOne] at h
  cases hres : resolveArgs st.lookup_table args with
  | none =>
    simp only [hres] at h
    exact absurd h (by simp)
  | some args_ids =>
    simp only [hres] at h
    have hbound : ∀ c ∈ args_ids, c < st.nodes.length :=
      resolveArgs_bound st.lookup_table hwf.2.1 args args_ids hres
    have hupd : ∀ (node : NodeType R),
        (∀ cs, node.children = some cs → ∀ c ∈ cs, c < st.nodes.length) →
        node.isPlaceHolder = false →
        st' = updateRoots st node nid →
        WellFormedState st'
        ∧ st.nodes.length ≤ st'.nodes.length
        ∧ (∀ i, i ≠ nid → i < st.nodes.length → st'.nodes[i]? = st.nodes[i]?)
        ∧ (∀ nd, st'.nodes[nid]? = some nd → nd.isPlaceHolder = false)
        ∧ (∀ i, st.nodes.length ≤ i → ∀ nd, st'.nodes[i]? = some nd →
            nd.isPlaceHolder = false) := by
      intro node hch hnp heq
      subst heq
      refine ⟨wf_updateRoots st node nid hwf hch, ?_, ?_, ?_, ?_⟩
      · simp [updateRoots]
      · intro i hne _
        simp only [updateRoots]
        exact List.getElem?_set_ne (fun hh => hne hh.symm)
      · intro nd hnd
        simp only [updateRoots] at hnd
        rw [List.getElem?_set_self hnid] at hnd
        simp only [Option.some.injEq] at hnd
        rw [← hnd]
        exact hnp
      · intro i hge nd hnd
        simp only [updateRoots] at hnd
        have : i ≠ nid := by omega
        rw [List.getElem?_set_ne (fun hh => this hh.symm)] at hnd
        rw [List.getElem?_eq_some] at hnd
        obtain ⟨hlt, _⟩ := hnd
        omega
    cases op with
    | or =>
      simp only [Option.some.injEq] at h
      refine hupd (NodeType.Or args_ids) ?_ rfl h.symm
      intro cs hcs c hcc
      simp only [NodeType.children, Option.some.injEq] at hcs
      rw [← hcs] at hcc
      exact hbound c hcc
    | xor =>
      simp only [Option.some.injEq] at h
      refine hupd (NodeType.Xor args_ids) ?_ rfl h.symm
      intro cs hcs c hcc
      simp only [NodeType.children, Option.some.injEq] at hcs
      rw [← hcs] at hcc
      exact hbound c hcc
    | and =>
      simp only [Option.some.injEq] at h
      refine hupd (NodeType.And args_ids) ?_ rfl h.symm
      intro cs hcs c hcc
      simp only [NodeType.children, Option.some.injEq] at hcs
      rw [← hcs] at hcc
      exact hbound c hcc
    | not =>
      cases args_ids with
      | nil => simp at h
      | cons a tl =>
        cases tl with
        | cons b tl2 => simp at h
        | nil =>
          simp only [Option.some.injEq] at h
          refine hupd (NodeType.Not a) ?_ rfl h.symm
          intro cs hcs c hcc
          simp only [NodeType.children, Option.some.injEq] at hcs
          rw [← hcs] at hcc
          simp only [List.mem_singleton] at hcc
          subst hcc
          exact hbound _ (List.mem_cons_self _ _)
    | unsupported s => simp at h
    | ofK k n =>
      by_cases hval : args.length ≠ n ∨ k < 1 ∨ k > n
      · simp only [if_pos hval] at h
        exact absurd h (by simp)
      · simp only [if_neg hval] at h
        by_cases hnk : (n == k) = true
        · simp only [hnk, if_true] at h
          simp only [Option.some.injEq] at h
          refine hupd (NodeType.And args_ids) ?_ rfl h.symm
          intro cs hcs c hcc
          simp only [NodeType.children, Option.some.injEq] at hcs
          rw [← hcs] at hcc
          exact hbound c hcc
        · simp only [hnk, Bool.false_eq_true, if_false] at h
          by_cases hk1 : (k == 1) = true
          · simp only [hk1, if_true] at h
            simp only [Option.some.injEq] at h
            refine hupd (NodeType.Or args_ids) ?_ rfl h.symm
            intro cs hcs c hcc
            simp only [NodeType.children, Option.some.injEq] at hcs
            rw [← hcs] at hcc
            exact hbound c hcc
          · simp only [hk1, Bool.false_eq_true, if_false] at h
            by_cases hkeep : keep = true
            · simp only [hkeep, if_true] at h
              simp only [Option.some.injEq] at h
              refine hupd (NodeType.Vot (Int.ofNat k) args_ids) ?_ rfl h.symm
              intro cs hcs c hcc
              simp only [NodeType.children, Option.some.injEq] at hcs
              rw [← hcs] at hcc
              exact hbound c hcc
            · simp only [hkeep, Bool.false_eq_true, if_false] at h
              cases hexp : expandLoop st (votClauses (n - k) args) with
              | none =>
                simp only [hexp] at h
                exact absurd h (by simp)
              | some p =>
                obtain ⟨st'', aux_ids⟩ := p
                simp only [hexp, Option.some.injEq] at h
                obtain ⟨hwf'', ⟨ext, hext, hextnp⟩, hgids, _, hlen⟩ :=
                  expandLoop_spec (votClauses (n - k) args) st st'' aux_ids hwf hexp
                have hnid'' : nid < st''.nodes.length := by
                  rw [hext]
                  simp only [List.length_append]
                  omega
                subst h
                refine ⟨?_, ?_, ?_, ?_, ?_⟩
                · refine wf_updateRoots st'' (NodeType.And aux_ids) nid hwf'' ?_
                  intro cs hcs c hcc
                  simp only [NodeType.children, Option.some.injEq] at hcs
                  rw [← hcs] at hcc
                  exact hgids c hcc
                · simp only [updateRoots, List.length_set]
                  rw [hext]
                  simp
                · intro i hne hlt
                  simp only [updateRoots]
                  rw [List.getElem?_set_ne (fun hh => hne hh.symm)]
                  rw [hext, List.getElem?_append]
                  rw [if_pos hlt]
                · intro nd hnd
                  simp only [updateRoots] at hnd
                  rw [List.getElem?_set_self hnid''] at hnd
                  simp only [Option.some.injEq] at hnd
                  rw [← hnd]
                  rfl
                · intro i hge nd hnd
                  simp only [updateRoots] at hnd
                  have hine : i ≠ nid := by omega
                  rw [List.getElem?_set_ne (fun hh => hine hh.symm)] at hnd
                  rw [hext, List.getElem?_append_right (by omega)] at hnd
                  rw [List.getElem?_eq_some] at hnd
                  obtain ⟨hlt2, hgetn⟩ := hnd
                  have : nd ∈ ext := hgetn ▸ List.getElem_mem hlt2
                  exact hextnp nd this

theorem fillLoop_spec {R : Type} (keep : Bool) :
    ∀ (pids : List Nat) (st st' : NormState R),
      WellFormedState st →
      fillLoop keep st pids = some st' →
      (∀ i node, st.nodes[i]? = some node → node.isPlaceHolder = true → i ∈ pids) →
      WellFormedState st' ∧ ∀ node ∈ st'.nodes, node.isPlaceHolder = false := by
  intro pids
  induction pids with
  | nil =>
    intro st st' hwf h hph
    simp only [fillLoop, Option.some.injEq] at h
    subst h
    refine ⟨hwf, ?_⟩
    intro node hmem
    obtain ⟨i, hi⟩ := List.mem_iff_getElem?.mp hmem
    cases hp : node.isPlaceHolder with
    | false => rfl
    | true => exact absurd (hph i node hi hp) (by simp)
  | cons nid rest ih =>
    intro st st' hwf h hph
    simp only [fillLoop] at h
    cases hget : st.nodes[nid]? with
    | none =>
      simp only [hget] at h
      exact absurd h (by simp)
    | some node =>
      cases node with
      | PlaceHolder nm op args =>
        simp only [hget] at h
        cases hone : fillOne keep st nid op args with
        | none =>
          simp only [hone] at h
          exact absurd h (by simp)
        | some st1 =>
          simp only [hone] at h
          have hnid : nid < st.nodes.length := by
            rw [List.getElem?_eq_some] at hget
            exact hget.1
          obtain ⟨hwf1, hle, haway, hat, hbeyond⟩ :=
            fillOne_spec keep st st1 nid op args hnid hwf hone
          refine ih st1 st' hwf1 h ?_
          intro i nd hi hp
          by_cases hieq : i = nid
          · subst hieq
            exact absurd (hat nd hi) (by rw [hp]; simp)
          · by_cases hilt : i < st.nodes.length
            · rw [haway i hieq hilt] at hi
              have := hph i nd hi hp
              rcases List.mem_cons.mp this with rfl | hmem
              · exact absurd rfl hieq
              · exact hmem
            · have hge : st.nodes.length ≤ i := by omega
              exact absurd (hbeyond i hge nd hi) (by rw [hp]; simp)
      | BasicEvent nm m v => simp only [hget] at h; exact absurd h (by simp)
      | Not a => simp only [hget] at h; exact absurd h (by simp)
      | And args => simp only [hget] at h; exact absurd h (by simp)
      | Or args => simp only [hget] at h; exact absurd h (by simp)
      | Xor args => simp only [hget] at h; exact absurd h (by simp)
      | Vot k args => simp only [hget] at h; exact absurd h (by simp)

/-- Claim C8: for every declaration list the normalizer accepts (both with
and without simplify), after read_from_file completes no PlaceHolder node
remains in the node container, and every node id referenced as a child by
any node exists in the container. -/
theorem claim_C8 {R : Type} (decls : List (Decl R)) (simplify : Bool)
    (ftn : FaultTreeNormalizer R)
    (h : read_from_file decls simplify = some ftn) :
    (∀ node ∈ ftn.nodes, node.isPlaceHolder = false)
    ∧ (∀ node ∈ ftn.nodes, ∀ cs, node.children = some cs →
        ∀ c ∈ cs, c < ftn.nodes.length) := by
  simp only [read_from_file] at h
  cases hrf : read_file decls simplify with
  | none =>
    simp only [hrf] at h
    exact absurd h (by simp)
  | some p =>
    obtain ⟨root_name, st⟩ := p
    simp only [hrf] at h
    have hwfst : WellFormedState st := by
      have : ∃ root0 mapper0 st0,
          readFileLoop simplify decls "System" [] NormState.empty
            = some (root0, mapper0, st0)
          ∧ st = (if simplify then preprocess_placeholders mapper0 st0 else st0) := by
        simp only [read_file] at hrf
        cases hloop : readFileLoop simplify decls "System" [] (NormState.empty (R := R)) with
        | none =>
          simp only [hloop] at hrf
          exact absurd hrf (by simp)
        | some q =>
          obtain ⟨root0, mapper0, st0⟩ := q
          simp only [hloop, Option.some.injEq, Prod.mk.injEq] at hrf
          exact ⟨root0, mapper0, st0, rfl, hrf.2.symm⟩
      obtain ⟨root0, mapper0, st0, hloop, hst⟩ := this
      have hwf0 : WellFormedState st0 :=
        wf_readFileLoop simplify decls "System" [] NormState.empty root0 mapper0 st0
          wf_empty hloop
      rw [hst]
      by_cases hs : simplify
      · rw [if_pos hs]; exact wf_preprocess mapper0 st0 hwf0
      · rw [if_neg hs]; exact hwf0
    cases hfill : fill_placeholders false st with
    | none =>
      simp only [hfill] at h
      exact absurd h (by simp)
    | some st' =>
      simp only [hfill] at h
      cases hroot : lookupStr st'.lookup_table root_name with
      | none =>
        simp only [hroot] at h
        exact absurd h (by simp)
      | some root_id =>
        simp only [hroot, Option.some.injEq] at h
        have hspec := fillLoop_spec false (placeholderIds st) st st' hwfst hfill ?_
        · obtain ⟨hwf', hnp⟩ := hspec
          have hnodes : ftn.nodes = st'.nodes := by rw [← h]
          rw [hnodes]
          exact ⟨hnp, hwf'.2.2⟩
        · intro i node hi hp
          simp only [placeholderIds, List.mem_filter, List.mem_range]
          have hilt : i < st.nodes.length := by
            rw [List.getElem?_eq_some] at hi
            exact hi.1
          refine ⟨hilt, ?_⟩
          rw [hi]
          cases node with
          | PlaceHolder nm op args => rfl
          | BasicEvent nm m v => simp [NodeType.isPlaceHolder] at hp
          | Not a => simp [NodeType.isPlaceHolder] at hp
          | And args => simp [NodeType.isPlaceHolder] at hp
          | Or args => simp [NodeType.isPlaceHolder] at hp
          | Xor args => simp [NodeType.isPlaceHolder] at hp
          | Vot k args => simp [NodeType.isPlaceHolder] at hp

/-- Witness for C8: the invariant holds for a concrete accepted input. -/
theorem claim_C8_witness :
    (∀ node ∈ (FaultTreeNormalizer.mk [("b", 2), ("g1", 1), ("a", 0)]
        [NodeType.Or [2], NodeType.Or [0],
          NodeType.BasicEvent "b" "prob" (1 : ℤ)] 1).nodes,
      node.isPlaceHolder = false)
    ∧ (∀ node ∈ (FaultTreeNormalizer.mk [("b", 2), ("g1", 1), ("a", 0)]
        [NodeType.Or [2], NodeType.Or [0],
          NodeType.BasicEvent "b" "prob" (1 : ℤ)] 1).nodes,
        ∀ cs, node.children = some cs →
          ∀ c ∈ cs,
            c < (FaultTreeNormalizer.mk [("b", 2), ("g1", 1), ("a", 0)]
              [NodeType.Or [2], NodeType.Or [0],
                NodeType.BasicEvent "b" "prob" (1 : ℤ)] 1).nodes.length) :=
  claim_C8
    [Decl.toplevel "g1", Decl.gate "a" GateOp.or ["b"],
     Decl.gate "g1" GateOp.or ["a"], Decl.be "b" "prob" 1] false
    (FaultTreeNormalizer.mk [("b", 2), ("g1", 1), ("a", 0)]
      [NodeType.Or [2], NodeType.Or [0],
        NodeType.BasicEvent "b" "prob" (1 : ℤ)] 1)
    (by decide)

/-- The assignment of atoms encoded by a set of true variables: variable i
is true exactly when i is in the set; indices beyond the variable range are
false. -/
def assignOf {N : Nat} (s : Finset (Fin N)) : Nat → Bool :=
  fun i => if h : i < N then decide ((⟨i, h⟩ : Fin N) ∈ s) else false

/-- The weight of a total assignment under literal weights: the product of
the positive-literal weights of the true variables times the product of the
negative-literal weights of the false variables.  This is the weight the
weighted model counters called by src/solver.rs assign to a model of the
emitted CNF. -/
def weightOf {R : Type} [CommRing R] {N : Nat} (wpos wneg : Fin N → R)
    (s : Finset (Fin N)) : R :=
  (∏ i ∈ s, wpos i) * ∏ i ∈ sᶜ, wneg i

/-- The weighted model count of a formula over N variables: the sum, over
all total assignments, of the weight of the assignment when it satisfies
the formula and zero otherwise.  This is the exact quantity the external
model counters invoked by src/solver.rs compute on the emitted CNF. -/
def WMC {R : Type} [CommRing R] (N : Nat) (f : Formula Nat)
    (wpos wneg : Fin N → R) : R :=
  ∑ s : Finset (Fin N), if f.eval (assignOf s) then weightOf wpos wneg s else 0

/-- The gate-root path of Solver::compute of src/solver.rs composed with
apply_tseitin of src/fault_tree.rs: encode the tree, let the counter return
the weighted model count of the encoding, and return 1 minus the count when
the root is an OR gate and negate_or is set, the count itself otherwise.
The short-circuit of compute for a basic-event root (which returns the
event's own probability without calling a solver) is outside this model;
every claim about this function concerns a gate root. -/
def computeTEP {R : Type} [CommRing R] (ft : FaultTree R)
    (wpos wneg : Fin ft.nodes.length → R) : Option R :=
  match ft.nodes.get? ft.root_id with
  | none => none
  | some rootNode =>
    match apply_tseitin ft with
    | none => none
    | some f =>
      let wmc_res := WMC ft.nodes.length f wpos wneg
      some (if rootNode.is_or && ft.negate_or then 1 - wmc_res else wmc_res)

/-- The functional constraint the Tseitin clauses of one node impose on a
total assignment: a gate variable equals the boolean function of its
children, and a basic event is unconstrained. -/
def nodeOk {R : Type} (σ : Nat → Bool) (nid : Nat) : NodeType R → Bool
  | .BasicEvent _ _ _ => true
  | .Not a => σ nid == !σ a
  | .And args => σ nid == args.all σ
  | .Or args => σ nid == args.any σ
  | _ => false

/-- The node shapes whose Tseitin clauses define the gate variable as a
function of the children: basic events and NOT, AND, OR gates. -/
def staticNode {R : Type} : NodeType R → Bool
  | .BasicEvent _ _ _ => true
  | .Not _ => true
  | .And _ => true
  | .Or _ => true
  | _ => false

theorem all_const_true {α : Type} (l : List α) :
    (l.all fun _ => true) = true := by
  induction l with
  | nil => rfl
  | cons a l ih => simp [List.all_cons, ih]

theorem any_not_eq_not_all {α : Type} (σ : α → Bool) (l : List α) :
    l.any (fun a => !σ a) = !l.all σ := by
  induction l with
  | nil => rfl
  | cons a l ih => simp [List.any_cons, List.all_cons, ih]

theorem all_not_eq_not_any {α : Type} (σ : α → Bool) (l : List α) :
    l.all (fun a => !σ a) = !l.any σ := by
  induction l with
  | nil => rfl
  | cons a l ih => simp [List.any_cons, List.all_cons, ih]

/-- The AND Tseitin clauses hold exactly when the gate variable equals the
conjunction of the children. -/
theorem tseitin_and_sat (g : Nat) (args : List Nat) (σ : Nat → Bool) :
    (tseitin_and g args).eval σ = (σ g == args.all σ) := by
  unfold tseitin_and
  rw [Formula.eval_And_eq, List.all_append, List.all_cons, List.all_nil,
    Bool.and_true, all_map_general, evalOr_append_unit, any_eval_map_NotAtom,
    eval_Atom]
  have hcl : (fun nid =>
      (Formula.Or [Formula.Not (Formula.Atom g), Formula.Atom nid]).eval σ)
      = fun nid => !σ g || σ nid := by
    funext nid
    simp [Formula.eval, Formula.evalDisj]
  rw [hcl]
  cases hg : σ g with
  | true =>
    simp only [Bool.not_true, Bool.false_or, Bool.or_true, Bool.and_true,
      Bool.true_beq]
  | false =>
    simp only [Bool.not_false, Bool.true_or, all_const_true, Bool.true_and,
      Bool.or_false, any_not_eq_not_all, Bool.false_beq]

/-- The OR Tseitin clauses hold exactly when the gate variable equals the
disjunction of the children. -/
theorem tseitin_or_sat (g : Nat) (args : List Nat) (σ : Nat → Bool) :
    (tseitin_or g args).eval σ = (σ g == args.any σ) := by
  unfold tseitin_or
  rw [Formula.eval_And_eq, List.all_append, List.all_cons, List.all_nil,
    Bool.and_true, all_map_general, evalOr_append_unit, any_eval_map_Atom,
    eval_NotAtom]
  have hcl : (fun nid =>
      (Formula.Or [Formula.Atom g, Formula.Not (Formula.Atom nid)]).eval σ)
      = fun nid => σ g || !σ nid := by
    funext nid
    simp [Formula.eval, Formula.evalDisj]
  rw [hcl]
  cases hg : σ g with
  | true =>
    simp only [Bool.true_or, all_const_true, Bool.true_and, Bool.not_true,
      Bool.or_false, Bool.true_beq]
  | false =>
    simp only [Bool.false_or, Bool.not_false, Bool.or_true, Bool.and_true,
      all_not_eq_not_any, Bool.false_beq]

/-- The NOT Tseitin clauses hold exactly when the gate variable equals the
negation of the child. -/
theorem tseitin_not_sat (g : Nat) (a : Nat) (σ : Nat → Bool) :
    (tseitin_not g a).eval σ = (σ g == !σ a) := by
  cases hg : σ g <;> cases ha : σ a <;>
    simp [tseitin_not, Formula.eval, Formula.evalConj, Formula.evalDisj, hg, ha]

theorem evalConj_append {A : Type} (σ : A → Bool) (xs ys : List (Formula A)) :
    Formula.evalConj σ (xs ++ ys)
      = (Formula.evalConj σ xs && Formula.evalConj σ ys) := by
  rw [Formula.evalConj_eq_all, Formula.evalConj_eq_all, Formula.evalConj_eq_all,
    List.all_append]

theorem tseitinFold_cons_conj {R : Type} (acc : List (Formula Nat)) (nid : Nat)
    (node : NodeType R) (rest : List (Nat × NodeType R)) (L : List (Formula Nat))
    (h : tseitin_transformation node nid = some (Formula.And L)) :
    tseitinFold acc ((nid, node) :: rest) = tseitinFold (acc ++ L) rest := by
  simp only [tseitinFold, h]

theorem tseitinFold_cons_true {R : Type} (acc : List (Formula Nat)) (nid : Nat)
    (node : NodeType R) (rest : List (Nat × NodeType R))
    (h : tseitin_transformation node nid = some Formula._True) :
    tseitinFold acc ((nid, node) :: rest) = tseitinFold acc rest := by
  simp only [tseitinFold, h]

/-- On a list of static nodes the per-node Tseitin fold always succeeds,
and the resulting conjunction is satisfied exactly when the accumulator is
satisfied and every listed node satisfies its functional constraint. -/
theorem tseitinFold_static {R : Type} (pairs : List (Nat × NodeType R)) :
    ∀ acc : List (Formula Nat),
    (∀ p ∈ pairs, staticNode p.2 = true) →
    ∃ out, tseitinFold acc pairs = some out ∧
      ∀ σ : Nat → Bool, (Formula.And out).eval σ
        = ((Formula.And acc).eval σ
            && pairs.all (fun p => nodeOk σ p.1 p.2)) := by
  induction pairs with
  | nil =>
    intro acc _
    exact ⟨acc, rfl, fun σ => by simp [List.all_nil]⟩
  | cons p rest ih =>
    intro acc hstatic
    obtain ⟨nid, node⟩ := p
    have hnode : staticNode node = true := hstatic (nid, node) (by simp)
    have hrest : ∀ q ∈ rest, staticNode q.2 = true := by
      intro q hq
      exact hstatic q (by simp [hq])
    cases node with
    | BasicEvent nm m v =>
      obtain ⟨out, hout, heval⟩ := ih acc hrest
      refine ⟨out, ?_, ?_⟩
      · rw [tseitinFold_cons_true acc nid (NodeType.BasicEvent nm m v) rest rfl]
        exact hout
      · intro σ
        rw [heval σ, List.all_cons]
        simp [nodeOk]
    | Not a =>
      have htr : tseitin_transformation (NodeType.Not a (R := R)) nid
          = some (tseitin_not nid a) := rfl
      have hshape : tseitin_not nid a
          = Formula.And
              [Formula.Or [Formula.Atom nid, Formula.Atom a],
               Formula.Or
                 [Formula.Not (Formula.Atom nid),
                  Formula.Not (Formula.Atom a)]] := rfl
      obtain ⟨out, hout, heval⟩ := ih (acc ++
          [Formula.Or [Formula.Atom nid, Formula.Atom a],
           Formula.Or
             [Formula.Not (Formula.Atom nid),
              Formula.Not (Formula.Atom a)]]) hrest
      refine ⟨out, ?_, ?_⟩
      · rw [tseitinFold_cons_conj acc nid _ rest _ (hshape ▸ htr)]
        exact hout
      · intro σ
        rw [heval σ, List.all_cons]
        have hsat := tseitin_not_sat nid a σ
        rw [hshape] at hsat
        simp only [Formula.eval] at hsat ⊢
        rw [evalConj_append, hsat]
        simp only [nodeOk]
        rw [Bool.and_assoc]
    | And args =>
      have htr : tseitin_transformation (NodeType.And args (R := R)) nid
          = some (tseitin_and nid args) := rfl
      have hshape : tseitin_and nid args
          = Formula.And
              ((args.map (fun c =>
                  Formula.Or [Formula.Not (Formula.Atom nid), Formula.Atom c]))
                ++ [Formula.Or
                     (args.map (fun c => Formula.Not (Formula.Atom c))
                       ++ [Formula.Atom nid])]) := rfl
      obtain ⟨out, hout, heval⟩ := ih (acc ++
          ((args.map (fun c =>
              Formula.Or [Formula.Not (Formula.Atom nid), Formula.Atom c]))
            ++ [Formula.Or
                 (args.map (fun c => Formula.Not (Formula.Atom c))
                   ++ [Formula.Atom nid])])) hrest
      refine ⟨out, ?_, ?_⟩
      · rw [tseitinFold_cons_conj acc nid _ rest _ (hshape ▸ htr)]
        exact hout
      · intro σ
        rw [heval σ, List.all_cons]
        have hsat := tseitin_and_sat nid args σ
        rw [hshape] at hsat
        simp only [Formula.eval] at hsat ⊢
        rw [evalConj_append, hsat]
        simp only [nodeOk]
        rw [Bool.and_assoc]
    | Or args =>
      have htr : tseitin_transformation (NodeType.Or args (R := R)) nid
          = some (tseitin_or nid args) := rfl
      have hshape : tseitin_or nid args
          = Formula.And
              ((args.map (fun c =>
                  Formula.Or [Formula.Atom nid, Formula.Not (Formula.Atom c)]))
                ++ [Formula.Or
                     (args.map (fun c => Formula.Atom c)
                       ++ [Formula.Not (Formula.Atom nid)])]) := rfl
      obtain ⟨out, hout, heval⟩ := ih (acc ++
          ((args.map (fun c =>
              Formula.Or [Formula.Atom nid, Formula.Not (Formula.Atom c)]))
            ++ [Formula.Or
                 (args.map (fun c => Formula.Atom c)
                   ++ [Formula.Not (Formula.Atom nid)])])) hrest
      refine ⟨out, ?_, ?_⟩
      · rw [tseitinFold_cons_conj acc nid _ rest _ (hshape ▸ htr)]
        exact hout
      · intro σ
        rw [heval σ, List.all_cons]
        have hsat := tseitin_or_sat nid args σ
        rw [hshape] at hsat
        simp only [Formula.eval] at hsat ⊢
        rw [evalConj_append, hsat]
        simp only [nodeOk]
        rw [Bool.and_assoc]
    | Xor args => simp [staticNode] at hnode
    | Vot k args => simp [staticNode] at hnode
    | PlaceHolder nm op pargs => simp [staticNode] at hnode

theorem all_congr_mem {α : Type} (l : List α) (f g : α → Bool)
    (h : ∀ x ∈ l, f x = g x) : l.all f = l.all g := by
  induction l with
  | nil => rfl
  | cons a l ih =>
    rw [List.all_cons, List.all_cons, h a (by simp),
      ih (fun x hx => h x (by simp [hx]))]

theorem any_congr_mem {α : Type} (l : List α) (f g : α → Bool)
    (h : ∀ x ∈ l, f x = g x) : l.any f = l.any g := by
  induction l with
  | nil => rfl
  | cons a l ih =>
    rw [List.any_cons, List.any_cons, h a (by simp),
      ih (fun x hx => h x (by simp [hx]))]

/-- Fuel-bounded bottom-up evaluation of the node container under an
assignment of the basic events: the canonical boolean value of each node
determined by the functional constraints, computed to a given recursion
depth. -/
def evalNode {R : Type} (nodes : List (NodeType R)) (σB : Nat → Bool) :
    Nat → Nat → Bool
  | 0, _ => false
  | fuel + 1, i =>
    match nodes.get? i with
    | some (.BasicEvent _ _ _) => σB i
    | some (.Not a) => !(evalNode nodes σB fuel a)
    | some (.And args) => args.all (fun c => evalNode nodes σB fuel c)
    | some (.Or args) => args.any (fun c => evalNode nodes σB fuel c)
    | _ => false

/-- The canonical total assignment extending a basic-event assignment: each
node is evaluated with just enough fuel to exhaust its rank. -/
def canonExt {R : Type} (nodes : List (NodeType R)) (rk : Nat → Nat)
    (σB : Nat → Bool) : Nat → Bool :=
  fun i => evalNode nodes σB (rk i + 1) i

/-- Under a rank function that strictly decreases from every node to its
children, the fuel-bounded evaluation of a node is the same for every fuel
exceeding its rank. -/
theorem evalNode_fuel {R : Type} (nodes : List (NodeType R)) (σB : Nat → Bool)
    (rk : Nat → Nat)
    (hrank : ∀ i : Fin nodes.length,
      ∀ c ∈ ((nodes.get i).children).getD [], rk c < rk i) :
    ∀ k, ∀ i fuel fuel', rk i ≤ k → rk i < fuel → rk i < fuel' →
      evalNode nodes σB fuel i = evalNode nodes σB fuel' i := by
  intro k
  induction k using Nat.strong_induction_on with
  | _ k ih =>
    intro i fuel fuel' hk hf hf'
    cases fuel with
    | zero => omega
    | succ f =>
      cases fuel' with
      | zero => omega
      | succ f' =>
        simp only [evalNode]
        cases hget : nodes.get? i with
        | none => rfl
        | some node =>
          have hilt : i < nodes.length := (List.get?_eq_some.mp hget).1
          have hgeti : nodes.get ⟨i, hilt⟩ = node := by
            have := List.get?_eq_get hilt (l := nodes)
            rw [hget] at this
            exact (Option.some.injEq _ _).mp this.symm
          have hchild : ∀ c ∈ (node.children).getD [], rk c < rk i := by
            intro c hc
            have := hrank ⟨i, hilt⟩
            rw [hgeti] at this
            exact this c hc
          cases node with
          | BasicEvent nm m v => rfl
          | Not a =>
            have ha : rk a < rk i := hchild a (by simp [NodeType.children])
            dsimp only
            rw [ih (rk a) (by omega) a f f' (by omega) (by omega) (by omega)]
          | And args =>
            dsimp only
            refine all_congr_mem args _ _ ?_
            intro c hc
            have hcr : rk c < rk i := hchild c (by simp [NodeType.children, hc])
            exact ih (rk c) (by omega) c f f' (by omega) (by omega) (by omega)
          | Or args =>
            dsimp only
            refine any_congr_mem args _ _ ?_
            intro c hc
            have hcr : rk c < rk i := hchild c (by simp [NodeType.children, hc])
            exact ih (rk c) (by omega) c f f' (by omega) (by omega) (by omega)
          | Xor args => rfl
          | Vot kk args => rfl
          | PlaceHolder nm op pargs => rfl

theorem canonExt_out {R : Type} (nodes : List (NodeType R)) (rk : Nat → Nat)
    (σB : Nat → Bool) (i : Nat) (h : nodes.length ≤ i) :
    canonExt nodes rk σB i = false := by
  have hget : nodes.get? i = none := List.get?_eq_none.mpr h
  simp only [canonExt, evalNode, hget]

theorem canonExt_be {R : Type} (nodes : List (NodeType R)) (rk : Nat → Nat)
    (σB : Nat → Bool) (i : Nat) (nm m : String) (v : R)
    (h : nodes.get? i = some (NodeType.BasicEvent nm m v)) :
    canonExt nodes rk σB i = σB i := by
  simp only [canonExt, evalNode, h]

theorem canonExt_not {R : Type} (nodes : List (NodeType R)) (rk : Nat → Nat)
    (σB : Nat → Bool)
    (hrank : ∀ i : Fin nodes.length,
      ∀ c ∈ ((nodes.get i).children).getD [], rk c < rk i)
    (i : Nat) (a : Nat) (h : nodes.get? i = some (NodeType.Not a)) :
    canonExt nodes rk σB i = !canonExt nodes rk σB a := by
  have hilt : i < nodes.length := (List.get?_eq_some.mp h).1
  have hgeti : nodes.get ⟨i, hilt⟩ = NodeType.Not a := by
    have := List.get?_eq_get hilt (l := nodes)
    rw [h] at this
    exact (Option.some.injEq _ _).mp this.symm
  have ha : rk a < rk i := by
    have := hrank ⟨i, hilt⟩
    rw [hgeti] at this
    exact this a (by simp [NodeType.children])
  have hstep : canonExt nodes rk σB i = !evalNode nodes σB (rk i) a := by
    simp only [canonExt, evalNode, h]
  rw [hstep, evalNode_fuel nodes σB rk hrank (rk a) a (rk i) (rk a + 1)
    (le_refl _) (by omega) (by omega)]
  rfl

theorem canonExt_and {R : Type} (nodes : List (NodeType R)) (rk : Nat → Nat)
    (σB : Nat → Bool)
    (hrank : ∀ i : Fin nodes.length,
      ∀ c ∈ ((nodes.get i).children).getD [], rk c < rk i)
    (i : Nat) (args : List Nat) (h : nodes.get? i = some (NodeType.And args)) :
    canonExt nodes rk σB i = args.all (fun c => canonExt nodes rk σB c) := by
  have hilt : i < nodes.length := (List.get?_eq_some.mp h).1
  have hgeti : nodes.get ⟨i, hilt⟩ = NodeType.And args := by
    have := List.get?_eq_get hilt (l := nodes)
    rw [h] at this
    exact (Option.some.injEq _ _).mp this.symm
  have hstep : canonExt nodes rk σB i
      = args.all (fun c => evalNode nodes σB (rk i) c) := by
    simp only [canonExt, evalNode, h]
  rw [hstep]
  refine all_congr_mem args _ _ ?_
  intro c hc
  have hcr : rk c < rk i := by
    have := hrank ⟨i, hilt⟩
    rw [hgeti] at this
    exact this c (by simp [NodeType.children, hc])
  exact evalNode_fuel nodes σB rk hrank (rk c) c (rk i) (rk c + 1)
    (le_refl _) (by omega) (by omega)

theorem canonExt_or {R : Type} (nodes : List (NodeType R)) (rk : Nat → Nat)
    (σB : Nat → Bool)
    (hrank : ∀ i : Fin nodes.length,
      ∀ c ∈ ((nodes.get i).children).getD [], rk c < rk i)
    (i : Nat) (args : List Nat) (h : nodes.get? i = some (NodeType.Or args)) :
    canonExt nodes rk σB i = args.any (fun c => canonExt nodes rk σB c) := by
  have hilt : i < nodes.length := (List.get?_eq_some.mp h).1
  have hgeti : nodes.get ⟨i, hilt⟩ = NodeType.Or args := by
    have := List.get?_eq_get hilt (l := nodes)
    rw [h] at this
    exact (Option.some.injEq _ _).mp this.symm
  have hstep : canonExt nodes rk σB i
      = args.any (fun c => evalNode nodes σB (rk i) c) := by
    simp only [canonExt, evalNode, h]
  rw [hstep]
  refine any_congr_mem args _ _ ?_
  intro c hc
  have hcr : rk c < rk i := by
    have := hrank ⟨i, hilt⟩
    rw [hgeti] at this
    exact this c (by simp [NodeType.children, hc])
  exact evalNode_fuel nodes σB rk hrank (rk c) c (rk i) (rk c + 1)
    (le_refl _) (by omega) (by omega)

/-- The canonical extension satisfies every functional constraint. -/
theorem canonExt_sat {R : Type} (nodes : List (NodeType R)) (rk : Nat → Nat)
    (σB : Nat → Bool)
    (hstatic : ∀ i : Fin nodes.length, staticNode (nodes.get i) = true)
    (hrank : ∀ i : Fin nodes.length,
      ∀ c ∈ ((nodes.get i).children).getD [], rk c < rk i) :
    ∀ i : Fin nodes.length,
      nodeOk (canonExt nodes rk σB) i.1 (nodes.get i) = true := by
  intro i
  have hget : nodes.get? i.1 = some (nodes.get i) := List.get?_eq_get i.isLt
  cases hnode : nodes.get i with
  | BasicEvent nm m v => rfl
  | Not a =>
    simp only [nodeOk]
    rw [canonExt_not nodes rk σB hrank i.1 a (hnode ▸ hget)]
    exact beq_self_eq_true _
  | And args =>
    simp only [nodeOk]
    rw [canonExt_and nodes rk σB hrank i.1 args (hnode ▸ hget)]
    exact beq_self_eq_true _
  | Or args =>
    simp only [nodeOk]
    rw [canonExt_or nodes rk σB hrank i.1 args (hnode ▸ hget)]
    exact beq_self_eq_true _
  | Xor args =>
    have := hstatic i
    rw [hnode] at this
    exact absurd this (by simp [staticNode])
  | Vot k args =>
    have := hstatic i
    rw [hnode] at this
    exact absurd this (by simp [staticNode])
  | PlaceHolder nm op pargs =>
    have := hstatic i
    rw [hnode] at this
    exact absurd this (by simp [staticNode])

/-- A total assignment satisfying every functional constraint and agreeing
with a basic-event assignment on the basic events is the canonical
extension, on every in-range index. -/
theorem sat_eq_canonExt {R : Type} (nodes : List (NodeType R)) (rk : Nat → Nat)
    (σ σB : Nat → Bool)
    (hstatic : ∀ i : Fin nodes.length, staticNode (nodes.get i) = true)
    (hbound : ∀ i : Fin nodes.length,
      ∀ c ∈ ((nodes.get i).children).getD [], c < nodes.length)
    (hrank : ∀ i : Fin nodes.length,
      ∀ c ∈ ((nodes.get i).children).getD [], rk c < rk i)
    (hsat : ∀ i : Fin nodes.length, nodeOk σ i.1 (nodes.get i) = true)
    (hbe : ∀ i : Fin nodes.length,
      (nodes.get i).isBasicEvent = true → σ i.1 = σB i.1) :
    ∀ k, ∀ i : Fin nodes.length, rk i.1 ≤ k →
      σ i.1 = canonExt nodes rk σB i.1 := by
  intro k
  induction k using Nat.strong_induction_on with
  | _ k ih =>
    intro i hk
    have hget : nodes.get? i.1 = some (nodes.get i) := List.get?_eq_get i.isLt
    cases hnode : nodes.get i with
    | BasicEvent nm m v =>
      rw [hbe i (by rw [hnode]; rfl),
        canonExt_be nodes rk σB i.1 nm m v (hnode ▸ hget)]
    | Not a =>
      have hs := hsat i
      rw [hnode] at hs
      simp only [nodeOk] at hs
      have hσ : σ i.1 = !σ a := eq_of_beq hs
      have hmem : a ∈ ((nodes.get i).children).getD [] := by
        rw [hnode]; simp [NodeType.children]
      have halt : a < nodes.length := hbound i a hmem
      have har : rk a < rk i.1 := hrank i a hmem
      have hih : σ a = canonExt nodes rk σB a :=
        ih (rk a) (by omega) ⟨a, halt⟩ (le_refl _)
      rw [hσ, hih, canonExt_not nodes rk σB hrank i.1 a (hnode ▸ hget)]
    | And args =>
      have hs := hsat i
      rw [hnode] at hs
      simp only [nodeOk] at hs
      have hσ : σ i.1 = args.all σ := eq_of_beq hs
      rw [hσ, canonExt_and nodes rk σB hrank i.1 args (hnode ▸ hget)]
      refine all_congr_mem args _ _ ?_
      intro c hc
      have hmem : c ∈ ((nodes.get i).children).getD [] := by
        rw [hnode]; simp [NodeType.children, hc]
      have hclt : c < nodes.length := hbound i c hmem
      have hcr : rk c < rk i.1 := hrank i c hmem
      exact ih (rk c) (by omega) ⟨c, hclt⟩ (le_refl _)
    | Or args =>
      have hs := hsat i
      rw [hnode] at hs
      simp only [nodeOk] at hs
      have hσ : σ i.1 = args.any σ := eq_of_beq hs
      rw [hσ, canonExt_or nodes rk σB hrank i.1 args (hnode ▸ hget)]
      refine any_congr_mem args _ _ ?_
      intro c hc
      have hmem : c ∈ ((nodes.get i).children).getD [] := by
        rw [hnode]; simp [NodeType.children, hc]
      have hclt : c < nodes.length := hbound i c hmem
      have hcr : rk c < rk i.1 := hrank i c hmem
      exact ih (rk c) (by omega) ⟨c, hclt⟩ (le_refl _)
    | Xor args =>
      have := hstatic i
      rw [hnode] at this
      exact absurd this (by simp [staticNode])
    | Vot kk args =>
      have := hstatic i
      rw [hnode] at this
      exact absurd this (by simp [staticNode])
    | PlaceHolder nm op pargs =>
      have := hstatic i
      rw [hnode] at this
      exact absurd this (by simp [staticNode])

theorem isBasicEvent_shape {R : Type} (n : NodeType R)
    (h : n.isBasicEvent = true) :
    ∃ nm m v, n = NodeType.BasicEvent nm m v := by
  cases n with
  | BasicEvent nm m v => exact ⟨nm, m, v, rfl⟩
  | Not a => simp [NodeType.isBasicEvent] at h
  | And args => simp [NodeType.isBasicEvent] at h
  | Or args => simp [NodeType.isBasicEvent] at h
  | Xor args => simp [NodeType.isBasicEvent] at h
  | Vot k args => simp [NodeType.isBasicEvent] at h
  | PlaceHolder nm op args => simp [NodeType.isBasicEvent] at h

theorem assignOf_fin {N : Nat} (s : Finset (Fin N)) (i : Fin N) :
    assignOf s i.1 = decide (i ∈ s) := by
  simp [assignOf, i.isLt]

/-- On a basic event the canonical extension returns the given basic-event
assignment. -/
theorem canonExt_be_of_isBasicEvent {R : Type} (nodes : List (NodeType R))
    (rk : Nat → Nat) (σB : Nat → Bool) (x : Fin nodes.length)
    (h : (nodes.get x).isBasicEvent = true) :
    canonExt nodes rk σB x.1 = σB x.1 := by
  obtain ⟨nm, m, v, hno⟩ := isBasicEvent_shape _ h
  have hget : nodes.get? x.1 = some (NodeType.BasicEvent nm m v) :=
    (List.get?_eq_get x.isLt).trans (congrArg some hno)
  exact canonExt_be nodes rk σB x.1 nm m v hget

/-- Filtering the canonical extension into a set of true variables encodes
the canonical extension itself. -/
theorem assignOf_canonFilter {R : Type} (nodes : List (NodeType R))
    (rk : Nat → Nat) (σB : Nat → Bool) :
    assignOf (Finset.univ.filter
        (fun i : Fin nodes.length => canonExt nodes rk σB i.1 = true))
      = canonExt nodes rk σB := by
  funext n
  by_cases hn : n < nodes.length
  · have := assignOf_fin (Finset.univ.filter
        (fun i : Fin nodes.length => canonExt nodes rk σB i.1 = true)) ⟨n, hn⟩
    rw [this]
    simp [Finset.mem_filter]
  · rw [canonExt_out nodes rk σB n (by omega)]
    simp [assignOf, hn]

/-- The central counting identity: the sum of the assignment weights over
the assignments satisfying every functional constraint of a static acyclic
node container is the product, over the basic events, of the sum of the two
literal weights; with complementary basic-event weights and unit gate
weights it is 1. -/
theorem satWeight_sum_eq_one {R : Type} [CommRing R] (nodes : List (NodeType R))
    (rk : Nat → Nat) (wpos wneg : Fin nodes.length → R)
    (hstatic : ∀ i : Fin nodes.length, staticNode (nodes.get i) = true)
    (hbound : ∀ i : Fin nodes.length,
      ∀ c ∈ ((nodes.get i).children).getD [], c < nodes.length)
    (hrank : ∀ i : Fin nodes.length,
      ∀ c ∈ ((nodes.get i).children).getD [], rk c < rk i)
    (hbe : ∀ i : Fin nodes.length,
      (nodes.get i).isBasicEvent = true → wpos i + wneg i = 1)
    (hgate : ∀ i : Fin nodes.length,
      (nodes.get i).isBasicEvent = false → wpos i = 1 ∧ wneg i = 1) :
    ∑ s : Finset (Fin nodes.length),
      (if (∀ i : Fin nodes.length, nodeOk (assignOf s) i.1 (nodes.get i) = true)
        then weightOf wpos wneg s else 0) = 1 := by
  classical
  set B : Finset (Fin nodes.length) :=
    Finset.univ.filter (fun j : Fin nodes.length =>
      (nodes.get j).isBasicEvent = true) with hBdef
  have hBmem : ∀ i : Fin nodes.length,
      i ∈ B ↔ (nodes.get i).isBasicEvent = true := by
    intro i
    rw [hBdef]
    simp [Finset.mem_filter]
  rw [← Finset.sum_filter]
  have hstep : (∑ s ∈ Finset.univ.filter
        (fun s : Finset (Fin nodes.length) =>
          ∀ i : Fin nodes.length, nodeOk (assignOf s) i.1 (nodes.get i) = true),
        weightOf wpos wneg s)
      = ∑ t ∈ B.powerset, (∏ i ∈ t, wpos i) * ∏ i ∈ B \ t, wneg i := by
    refine Finset.sum_nbij' (fun s => s ∩ B)
      (fun t => Finset.univ.filter
        (fun i : Fin nodes.length =>
          canonExt nodes rk (assignOf t) i.1 = true))
      ?_ ?_ ?_ ?_ ?_
    · intro s _
      exact Finset.mem_powerset.mpr Finset.inter_subset_right
    · intro t _
      refine Finset.mem_filter.mpr ⟨Finset.mem_univ _, ?_⟩
      intro i
      rw [assignOf_canonFilter nodes rk (assignOf t)]
      exact canonExt_sat nodes rk (assignOf t) hstatic hrank i
    · intro s hs
      have hsat : ∀ i : Fin nodes.length,
          nodeOk (assignOf s) i.1 (nodes.get i) = true :=
        (Finset.mem_filter.mp hs).2
      have hagree : ∀ i : Fin nodes.length,
          (nodes.get i).isBasicEvent = true →
            assignOf s i.1 = assignOf (s ∩ B) i.1 := by
        intro i hbei
        have hiB : i ∈ B := (hBmem i).mpr hbei
        rw [assignOf_fin, assignOf_fin]
        refine decide_eq_decide.mpr ?_
        constructor
        · intro h
          exact Finset.mem_inter.mpr ⟨h, hiB⟩
        · intro h
          exact (Finset.mem_inter.mp h).1
      have huni := sat_eq_canonExt nodes rk (assignOf s) (assignOf (s ∩ B))
        hstatic hbound hrank hsat hagree
      apply Finset.ext
      intro x
      rw [Finset.mem_filter]
      have hx := huni (rk x.1) x (le_refl _)
      constructor
      · intro hmem
        have hcx := hmem.2
        rw [← hx, assignOf_fin] at hcx
        exact of_decide_eq_true hcx
      · intro hmem
        refine ⟨Finset.mem_univ _, ?_⟩
        rw [← hx, assignOf_fin]
        exact decide_eq_true hmem
    · intro t ht
      have hsub : t ⊆ B := Finset.mem_powerset.mp ht
      apply Finset.ext
      intro x
      rw [Finset.mem_inter, Finset.mem_filter]
      constructor
      · rintro ⟨⟨_, hcx⟩, hxB⟩
        have hbex : (nodes.get x).isBasicEvent = true := (hBmem x).mp hxB
        rw [canonExt_be_of_isBasicEvent nodes rk (assignOf t) x hbex,
          assignOf_fin] at hcx
        exact of_decide_eq_true hcx
      · intro hxt
        have hxB : x ∈ B := hsub hxt
        have hbex : (nodes.get x).isBasicEvent = true := (hBmem x).mp hxB
        refine ⟨⟨Finset.mem_univ _, ?_⟩, hxB⟩
        rw [canonExt_be_of_isBasicEvent nodes rk (assignOf t) x hbex,
          assignOf_fin]
        exact decide_eq_true hxt
    · intro s _
      show weightOf wpos wneg s
        = (∏ i ∈ s ∩ B, wpos i) * ∏ i ∈ B \ (s ∩ B), wneg i
      have h1 : ∏ i ∈ s, wpos i = ∏ i ∈ s ∩ B, wpos i := by
        rw [← Finset.prod_filter_mul_prod_filter_not s (fun i => i ∈ B) wpos]
        have hone : (∏ i ∈ s.filter (fun i => ¬ i ∈ B), wpos i) = 1 := by
          refine Finset.prod_eq_one ?_
          intro i hi
          have hiB := (Finset.mem_filter.mp hi).2
          have hbez : (nodes.get i).isBasicEvent = false := by
            cases hc : (nodes.get i).isBasicEvent with
            | true => exact absurd ((hBmem i).mpr hc) hiB
            | false => rfl
          exact (hgate i hbez).1
        rw [hone, mul_one, Finset.filter_mem_eq_inter]
      have h2 : ∏ i ∈ sᶜ, wneg i = ∏ i ∈ B \ (s ∩ B), wneg i := by
        rw [← Finset.prod_filter_mul_prod_filter_not sᶜ (fun i => i ∈ B) wneg]
        have hone : (∏ i ∈ sᶜ.filter (fun i => ¬ i ∈ B), wneg i) = 1 := by
          refine Finset.prod_eq_one ?_
          intro i hi
          have hiB := (Finset.mem_filter.mp hi).2
          have hbez : (nodes.get i).isBasicEvent = false := by
            cases hc : (nodes.get i).isBasicEvent with
            | true => exact absurd ((hBmem i).mpr hc) hiB
            | false => rfl
          exact (hgate i hbez).2
        rw [hone, mul_one, Finset.filter_mem_eq_inter]
        have hset : sᶜ ∩ B = B \ (s ∩ B) := by
          apply Finset.ext
          intro x
          simp only [Finset.mem_inter, Finset.mem_compl, Finset.mem_sdiff]
          tauto
        rw [hset]
      rw [weightOf, h1, h2]
  rw [hstep, ← Finset.prod_add]
  refine Finset.prod_eq_one ?_
  intro i hi
  exact hbe i ((hBmem i).mp hi)

theorem enum_all_nodeOk_iff {R : Type} (nodes : List (NodeType R))
    (σ : Nat → Bool) :
    (nodes.enum.all (fun p => nodeOk σ p.1 p.2) = true)
      ↔ ∀ i : Fin nodes.length, nodeOk σ i.1 (nodes.get i) = true := by
  rw [List.all_eq_true]
  constructor
  · intro h i
    have hmem : (i.1, nodes.get i) ∈ nodes.enum :=
      List.mem_enum_iff_get?.mpr (List.get?_eq_get i.isLt)
    exact h _ hmem
  · intro h p hp
    have hg := List.mem_enum_iff_get?.mp hp
    obtain ⟨hlt, heq⟩ := List.get?_eq_some.mp hg
    have hi := h ⟨p.1, hlt⟩
    rw [heq] at hi
    exact hi

theorem enum_static_of_static {R : Type} (nodes : List (NodeType R))
    (hstatic : ∀ i : Fin nodes.length, staticNode (nodes.get i) = true) :
    ∀ p ∈ nodes.enum, staticNode p.2 = true := by
  intro p hp
  have hg := List.mem_enum_iff_get?.mp hp
  obtain ⟨hlt, heq⟩ := List.get?_eq_some.mp hg
  have hi := hstatic ⟨p.1, hlt⟩
  rw [heq] at hi
  exact hi

/-- Claim C6 (amended): over a node container made only of basic events and
NOT, AND, OR gates (acyclic by a rank function, children in range), with
complementary basic-event weights and unit gate weights, the top event
probability computed through the negate_or encoding (unit clause for the
negated root, driver result 1 minus the count) equals the one computed with
negate_or unset, for every OR-gate root.  With an XOR gate in the container
the equality can fail, because the XOR Tseitin clauses do not define the
gate variable as a function of the children. -/
theorem claim_C6_amended {R : Type} [CommRing R] (nodes : List (NodeType R))
    (root_id : Nat) (rargs : List Nat) (rk : Nat → Nat)
    (wpos wneg : Fin nodes.length → R)
    (hroot : nodes.get? root_id = some (NodeType.Or rargs))
    (hstatic : ∀ i : Fin nodes.length, staticNode (nodes.get i) = true)
    (hbound : ∀ i : Fin nodes.length,
      ∀ c ∈ ((nodes.get i).children).getD [], c < nodes.length)
    (hrank : ∀ i : Fin nodes.length,
      ∀ c ∈ ((nodes.get i).children).getD [], rk c < rk i)
    (hbe : ∀ i : Fin nodes.length,
      (nodes.get i).isBasicEvent = true → wpos i + wneg i = 1)
    (hgate : ∀ i : Fin nodes.length,
      (nodes.get i).isBasicEvent = false → wpos i = 1 ∧ wneg i = 1) :
    computeTEP (FaultTree.mk nodes root_id true) wpos wneg
      = computeTEP (FaultTree.mk nodes root_id false) wpos wneg := by
  have hpairs := enum_static_of_static nodes hstatic
  obtain ⟨outT, hT, hevalT⟩ :=
    tseitinFold_static nodes.enum [Formula.Not (Formula.Atom root_id)] hpairs
  obtain ⟨outF, hF, hevalF⟩ :=
    tseitinFold_static nodes.enum [Formula.Atom root_id] hpairs
  have happT : apply_tseitin (FaultTree.mk nodes root_id true)
      = some (Formula.And outT) := by
    simp only [apply_tseitin, hroot, NodeType.is_or, Bool.and_true, if_true,
      hT, Option.map_some']
  have happF : apply_tseitin (FaultTree.mk nodes root_id false)
      = some (Formula.And outF) := by
    simp only [apply_tseitin, hroot, NodeType.is_or, Bool.and_false,
      Bool.false_eq_true, if_false, hF, Option.map_some']
  have hcT : computeTEP (FaultTree.mk nodes root_id true) wpos wneg
      = some (1 - WMC nodes.length (Formula.And outT) wpos wneg) := by
    simp only [computeTEP, hroot, happT, NodeType.is_or, Bool.and_true, if_true]
  have hcF : computeTEP (FaultTree.mk nodes root_id false) wpos wneg
      = some (WMC nodes.length (Formula.And outF) wpos wneg) := by
    simp only [computeTEP, hroot, happF, NodeType.is_or, Bool.and_false,
      Bool.false_eq_true, if_false]
  rw [hcT, hcF]
  have hsum : WMC nodes.length (Formula.And outT) wpos wneg
      + WMC nodes.length (Formula.And outF) wpos wneg = 1 := by
    have hsplit : WMC nodes.length (Formula.And outT) wpos wneg
        + WMC nodes.length (Formula.And outF) wpos wneg
        = ∑ s : Finset (Fin nodes.length),
            (if (∀ i : Fin nodes.length,
                nodeOk (assignOf s) i.1 (nodes.get i) = true)
              then weightOf wpos wneg s else 0) := by
      rw [WMC, WMC, ← Finset.sum_add_distrib]
      refine Finset.sum_congr rfl ?_
      intro s _
      rw [hevalT (assignOf s), hevalF (assignOf s)]
      have hunitT : (Formula.And
          [Formula.Not (Formula.Atom root_id)]).eval (assignOf s)
          = !(assignOf s root_id) := by
        simp [Formula.eval, Formula.evalConj]
      have hunitF : (Formula.And [Formula.Atom root_id]).eval (assignOf s)
          = assignOf s root_id := by
        simp [Formula.eval, Formula.evalConj]
      rw [hunitT, hunitF]
      have hiff := enum_all_nodeOk_iff nodes (assignOf s)
      simp only [← hiff]
      cases hP : nodes.enum.all (fun p => nodeOk (assignOf s) p.1 p.2) with
      | false => simp [hP]
      | true =>
        cases hr : assignOf s root_id with
        | false => simp [hP, hr]
        | true => simp [hP, hr]
    rw [hsplit]
    exact satWeight_sum_eq_one nodes rk wpos wneg hstatic hbound hrank hbe hgate
  rw [show (1 : R) - WMC nodes.length (Formula.And outT) wpos wneg
      = WMC nodes.length (Formula.And outF) wpos wneg from by
    rw [← hsum]; ring]

set_option maxRecDepth 10000

/-- Counterexample to claim C6: on a tree whose OR root has an XOR gate of
three basic events below it, with basic-event value 2 in the ring of
integers (weights 2 and 1-2 = -1), the negate_or computation 1 minus the
count differs from the plain computation: the XOR Tseitin clauses leave the
gate variable undetermined on some child assignments, so the two counts do
not sum to the weight total. -/
theorem claim_C6_counterexample :
    computeTEP
        (FaultTree.mk
          [NodeType.Or [1], NodeType.Xor [2, 3, 4],
           NodeType.BasicEvent "a" "prob" (2 : ℤ),
           NodeType.BasicEvent "b" "prob" 2,
           NodeType.BasicEvent "c" "prob" 2]
          0 true)
        (fun i => if i.1 ≤ 1 then 1 else 2)
        (fun i => if i.1 ≤ 1 then 1 else -1)
      ≠ computeTEP
        (FaultTree.mk
          [NodeType.Or [1], NodeType.Xor [2, 3, 4],
           NodeType.BasicEvent "a" "prob" (2 : ℤ),
           NodeType.BasicEvent "b" "prob" 2,
           NodeType.BasicEvent "c" "prob" 2]
          0 false)
        (fun i => if i.1 ≤ 1 then 1 else 2)
        (fun i => if i.1 ≤ 1 then 1 else -1) := by decide

/-- Witness for the amended C6 on a concrete AND/OR/NOT-free-of-XOR tree:
an OR root over two basic events, integer weights 2 and -1. -/
theorem claim_C6_amended_witness :
    computeTEP
        (FaultTree.mk
          [NodeType.Or [1, 2],
           NodeType.BasicEvent "a" "prob" (2 : ℤ),
           NodeType.BasicEvent "b" "prob" 2]
          0 true)
        (fun i => if i.1 = 0 then 1 else 2)
        (fun i => if i.1 = 0 then 1 else -1)
      = computeTEP
        (FaultTree.mk
          [NodeType.Or [1, 2],
           NodeType.BasicEvent "a" "prob" (2 : ℤ),
           NodeType.BasicEvent "b" "prob" 2]
          0 false)
        (fun i => if i.1 = 0 then 1 else 2)
        (fun i => if i.1 = 0 then 1 else -1) :=
  claim_C6_amended
    [NodeType.Or [1, 2],
     NodeType.BasicEvent "a" "prob" (2 : ℤ),
     NodeType.BasicEvent "b" "prob" 2]
    0 [1, 2] (fun i => 3 - i)
    (fun i => if i.1 = 0 then 1 else 2)
    (fun i => if i.1 = 0 then 1 else -1)
    rfl (by decide) (by decide) (by decide) (by decide) (by decide)

/-- The largest value of the 64-bit machine word: usize MAX of the Rust
source, used by the modularizer as the initial descendant minimum. -/
def usizeMAX : Nat := 2 ^ 64 - 1

/-- The helper struct DFSNode of src/modularizer.rs: the visit flag and the
five visit-time fields of the Dutuit-Rauzy modularization state. -/
structure DFSNode where
  visited : Bool
  t_fst_visit : Nat
  t_snd_visit : Nat
  t_lst_visit : Nat
  t_max_desc : Nat
  t_min_desc : Nat
  deriving Repr, DecidableEq

/-- The Default impl of DFSNode: usize MIN is 0, usize MAX the word
maximum. -/
def DFSNode.default : DFSNode :=
  { visited := false, t_fst_visit := 0, t_snd_visit := 0, t_lst_visit := 0,
    t_max_desc := 0, t_min_desc := usizeMAX }

/-- DFSNode is_module of src/modularizer.rs. -/
def DFSNode.is_module (self : DFSNode) : Bool :=
  decide (self.t_min_desc > self.t_fst_visit)
    && decide (self.t_max_desc < self.t_snd_visit)

/-- DFSNode snd_dfs_visited of src/modularizer.rs: true while the second
pass has not yet stored descendant times here. -/
def DFSNode.snd_dfs_visited (self : DFSNode) : Bool :=
  self.t_min_desc == usizeMAX

/-- DFSNode update_t_desc of src/modularizer.rs. -/
def DFSNode.update_t_desc (self : DFSNode) (min_c max_c : Nat) : DFSNode :=
  if self.snd_dfs_visited then
    { self with t_min_desc := min_c, t_max_desc := max_c }
  else
    { self with
      t_min_desc := min self.t_min_desc min_c,
      t_max_desc := max self.t_max_desc max_c }

/-- The child-id lists get_modules of src/modularizer.rs builds from the
node container before the two DFS passes. -/
def childrenLists {R : Type} (ft : FaultTree R) : List (List Nat) :=
  ft.nodes.map (fun n =>
    match n with
    | .BasicEvent _ _ _ => []
    | .Not arg => [arg]
    | .And args => args
    | .Or args => args
    | .Xor args => args
    | .Vot _ args => args
    | .PlaceHolder _ _ _ => [])

/-- fst_dfs of src/modularizer.rs, defunctionalized: the recursive calls
(the loop over the children followed by the self call on the current node)
are written as an explicit continuation list of node ids processed in the
identical order, so the visit sequence and every field update coincide with
the source recursion.  Fuel bounds the number of visits; out-of-range
indexing (a source panic) and exhausted fuel are none. -/
def fst_dfs (children : List (List Nat)) :
    Nat → List Nat → List DFSNode × Nat → Option (List DFSNode × Nat)
  | 0, tasks, st => if tasks.isEmpty then some st else none
  | _ + 1, [], st => some st
  | fuel + 1, curr :: rest, (nodes, time) =>
    match nodes.get? curr, children.get? curr with
    | some nd0, some cs =>
      let time1 := time + 1
      let nd1 := { nd0 with t_lst_visit := time1 }
      if cs.isEmpty then
        let nodes2 :=
          if !nd1.visited then
            nodes.set curr
              { nd1 with
                visited := true,
                t_fst_visit := time1,
                t_snd_visit := time1 }
          else nodes.set curr nd1
        fst_dfs children fuel rest (nodes2, time1)
      else
        if !nd1.visited then
          fst_dfs children fuel (cs ++ curr :: rest)
            (nodes.set curr { nd1 with visited := true, t_fst_visit := time1 },
              time1)
        else
          let nodes2 :=
            if nd1.t_snd_visit == 0 then
              nodes.set curr { nd1 with t_snd_visit := time1 }
            else nodes.set curr nd1
          fst_dfs children fuel rest (nodes2, time1)
    | _, _ => none

/-- The work items of the defunctionalized snd_dfs: visit a node, fold a
returned descendant pair into a parent, or assemble a node's return pair. -/
inductive SndItem where
  | visit (v : Nat)
  | upd (parent : Nat)
  | ret (v : Nat)
  deriving Repr, DecidableEq

/-- snd_dfs of src/modularizer.rs, defunctionalized: a visit of an already
summarized node immediately returns its own first and last visit times; a
first visit expands into the child visits interleaved with the parent
updates and a closing return item, exactly the order of the source
recursion.  The last component carries the most recently returned
descendant-times pair. -/
def snd_dfs (children : List (List Nat)) :
    Nat → List SndItem → List DFSNode → Nat × Nat →
      Option (List DFSNode × (Nat × Nat))
  | 0, tasks, nodes, last => if tasks.isEmpty then some (nodes, last) else none
  | _ + 1, [], nodes, last => some (nodes, last)
  | fuel + 1, item :: rest, nodes, last =>
    match item with
    | .visit v =>
      match nodes.get? v, children.get? v with
      | some nd, some cs =>
        if !nd.snd_dfs_visited then
          snd_dfs children fuel rest nodes (nd.t_fst_visit, nd.t_lst_visit)
        else
          snd_dfs children fuel
            ((cs.map (fun c => [SndItem.visit c, SndItem.upd v])).flatten
              ++ SndItem.ret v :: rest)
            nodes last
      | _, _ => none
    | .upd v =>
      match nodes.get? v with
      | some nd =>
        snd_dfs children fuel rest
          (nodes.set v (nd.update_t_desc last.1 last.2)) last
      | none => none
    | .ret v =>
      match nodes.get? v with
      | some nd =>
        snd_dfs children fuel rest nodes
          (min nd.t_min_desc nd.t_fst_visit, max nd.t_max_desc nd.t_lst_visit)
      | none => none

/-- get_modules of src/modularizer.rs: run the two DFS passes from the root
over fresh DFSNode state and keep every node id that passes is_module, has
children and differs from the root. -/
def get_modules {R : Type} (ft : FaultTree R) (fuel : Nat) :
    Option (List Nat) :=
  let children := childrenLists ft
  let dfs0 : List DFSNode := List.replicate ft.nodes.length DFSNode.default
  match fst_dfs children fuel [ft.root_id] (dfs0, 0) with
  | none => none
  | some (n1, _) =>
    match snd_dfs children fuel [SndItem.visit ft.root_id] n1 (0, 0) with
    | none => none
    | some (n2, _) =>
      some (n2.enum.filterMap (fun p =>
        if p.2.is_module && !((children.getD p.1 []).isEmpty)
            && decide (p.1 ≠ ft.root_id)
        then some p.1 else none))

/-- Set of nodes reachable from the start list along the child lists,
optionally treating one node as removed; fuel-bounded saturation.  This is
the specification-side notion used to state what a module is. -/
def reachLoop (children : List (List Nat)) (avoid : Option Nat) :
    Nat → List Nat → List Nat → List Nat
  | 0, _, seen => seen
  | _ + 1, [], seen => seen
  | fuel + 1, x :: rest, seen =>
    if seen.contains x || avoid == some x then
      reachLoop children avoid fuel rest seen
    else
      reachLoop children avoid fuel (rest ++ children.getD x []) (seen ++ [x])

/-- The specification of a module, following the claim: a non-root node
with at least one child none of whose proper descendants can be reached
from the root along a path avoiding the node itself. -/
def specIsModule (children : List (List Nat)) (root v : Nat) (fuel : Nat) :
    Bool :=
  !(children.getD v []).isEmpty && decide (v ≠ root)
    && ((reachLoop children none fuel [v] []).filter (fun d => d ≠ v)).all
      (fun d => !(reachLoop children (some v) fuel [root] []).contains d)

/-- The specification-side module list: every node id satisfying
specIsModule. -/
def specModules {R : Type} (ft : FaultTree R) (fuel : Nat) : List Nat :=
  (List.range ft.nodes.length).filter
    (fun v => specIsModule (childrenLists ft) ft.root_id v fuel)

/-- On a tree of nested gates the modularizer returns exactly the two inner
gates, and the specification checker agrees. -/
theorem get_modules_nested_example :
    get_modules
        (FaultTree.mk
          [NodeType.And [1], NodeType.And [2, 3], NodeType.And [4, 5],
           NodeType.BasicEvent "d" "prob" (1 : ℤ),
           NodeType.BasicEvent "e" "prob" 1,
           NodeType.BasicEvent "f" "prob" 1] 0 false) 1000
      = some [1, 2]
    ∧ specModules
        (FaultTree.mk
          [NodeType.And [1], NodeType.And [2, 3], NodeType.And [4, 5],
           NodeType.BasicEvent "d" "prob" (1 : ℤ),
           NodeType.BasicEvent "e" "prob" 1,
           NodeType.BasicEvent "f" "prob" 1] 0 false) 1000
      = [1, 2] := by decide

/-- On the diamond (two gates sharing a basic event) neither gate is a
module, in the algorithm and in the specification checker alike. -/
theorem get_modules_diamond_example :
    get_modules
        (FaultTree.mk
          [NodeType.And [1, 2], NodeType.Or [3], NodeType.Or [3],
           NodeType.BasicEvent "d" "prob" (1 : ℤ)] 0 false) 1000
      = some []
    ∧ specModules
        (FaultTree.mk
          [NodeType.And [1, 2], NodeType.Or [3], NodeType.Or [3],
           NodeType.BasicEvent "d" "prob" (1 : ℤ)] 0 false) 1000
      = [] := by decide

/-- A gate whose subtree contains an internally shared event is a module
while the two inner sharers are not; algorithm and checker agree. -/
theorem get_modules_inner_shared_example :
    get_modules
        (FaultTree.mk
          [NodeType.And [1], NodeType.And [2, 3], NodeType.Or [4],
           NodeType.Or [4], NodeType.BasicEvent "d" "prob" (1 : ℤ)]
          0 false) 1000
      = some [1]
    ∧ specModules
        (FaultTree.mk
          [NodeType.And [1], NodeType.And [2, 3], NodeType.Or [4],
           NodeType.Or [4], NodeType.BasicEvent "d" "prob" (1 : ℤ)]
          0 false) 1000
      = [1] := by decide

/-- On a container holding a gate unreachable from the root the two lists
diverge: the unvisited gate keeps its zeroed visit times and fails the
is_module test, while the specification reading counts it (its private
descendant is shared with nobody).  Such containers sit at the boundary of
the claim's rooted-DAG premise. -/
theorem get_modules_unreachable_divergence :
    get_modules
        (FaultTree.mk
          [NodeType.Or [2], NodeType.Or [3],
           NodeType.BasicEvent "a" "prob" (1 : ℤ),
           NodeType.BasicEvent "b" "prob" 1] 0 false) 1000
      = some []
    ∧ specModules
        (FaultTree.mk
          [NodeType.Or [2], NodeType.Or [3],
           NodeType.BasicEvent "a" "prob" (1 : ℤ),
           NodeType.BasicEvent "b" "prob" 1] 0 false) 1000
      = [1] := by decide
